import Mathlib

/-!
Verification development for the tree-graph repository.

The repository (src/lib.rs, src/geometry.rs) materializes a parser syntax
tree as a directed graph (petgraph `DiGraph<GNode,()>`), supports subgraph
extraction at chosen node kinds, (de)serialization, and traversal /
shortest-path utilities.  This file gives a shallow embedding of those
definitions and proves the specification claims about them.

Modelling conventions:
* petgraph node/edge indices are `Nat` list positions (the repository never
  removes nodes or edges, so petgraph indices coincide with insertion
  positions);
* `HashMap<NodeIndex, usize>` is an association list with replace-on-insert
  semantics (`mapInsert` / `mapGet`); `HashSet` iteration order is
  unspecified in Rust, here the breadth-first discovery order is used;
* the external `tree_sitter::Tree` is an inductive rose tree `TSTree`
  exposing per node the id / kind / range accessors the code reads;
* byte-range source slicing is modelled at character granularity (no claim
  depends on slice contents);
* `petgraph::algo::astar` is called with uniform edge cost 1 and zero
  heuristic, in which case it returns a minimum-edge-count path when the
  goal is reachable and `None` otherwise; `path_from_to` models exactly
  that contract by a breadth-first layered search.
-/

/-- `geometry.rs`: `GPoint { row, column }`. -/
structure GPoint where
  row : Nat
  column : Nat
deriving DecidableEq, Repr, Inhabited

/-- `geometry.rs`: `GRange { start_byte, end_byte, start_point, end_point }`. -/
structure GRange where
  start_byte : Nat
  end_byte : Nat
  start_point : GPoint
  end_point : GPoint
deriving DecidableEq, Repr, Inhabited

/-- `geometry.rs`: `GNode { id, kind_id, range }`, the graph vertex payload. -/
structure GNode where
  id : Nat
  kind_id : Nat
  range : GRange
deriving DecidableEq, Repr, Inhabited

/-- `geometry.rs`: `Edge { source, target }`, endpoints as graph indices. -/
structure Edge where
  source : Nat
  target : Nat
deriving DecidableEq, Repr, Inhabited

/-- `lib.rs`: `SerializableGraph { nodes, edges }`. -/
structure SerializableGraph where
  nodes : List GNode
  edges : List Edge
deriving DecidableEq, Repr

/-- petgraph `DiGraph<GNode,()>`: node list and edge list in insertion
order; an index is a position in the corresponding list. -/
structure DiGraph where
  nodes : List GNode
  edges : List Edge
deriving DecidableEq, Repr, Inhabited

/-- `HashMap<NodeIndex, usize>::insert` (replaces the value of an existing
key). -/
def mapInsert (m : List (Nat × Nat)) (k v : Nat) : List (Nat × Nat) :=
  m.filter (fun p => p.1 != k) ++ [(k, v)]

/-- `HashMap<NodeIndex, usize>::get(..).cloned()`. -/
def mapGet (m : List (Nat × Nat)) (k : Nat) : Option Nat :=
  (m.find? (fun p => p.1 == k)).map Prod.snd

/-- The data a `tree_sitter::Node` exposes to `add_node`: `id()`,
`kind_id()`, `range()`. -/
structure NodeData where
  id : Nat
  kind_id : Nat
  range : GRange
deriving DecidableEq, Repr, Inhabited

/-- The external `tree_sitter::Tree`: a rose tree of `NodeData`, children
ordered as `child(0), child(1), ...`. -/
inductive TSTree where
  | node : NodeData → List TSTree → TSTree

mutual
/-- Total number of nodes of a tree. -/
def TSTree.count : TSTree → Nat
  | .node _ children => 1 + TSTree.countList children
/-- Total number of nodes of a forest. -/
def TSTree.countList : List TSTree → Nat
  | [] => 0
  | t :: ts => TSTree.count t + TSTree.countList ts
end

mutual
/-- Preorder (depth-first, left-to-right) listing of the node data of a
tree — the order `traverse_and_build` visits nodes. -/
def TSTree.preorder : TSTree → List NodeData
  | .node d children => d :: TSTree.preorderList children
/-- Preorder listing of a forest. -/
def TSTree.preorderList : List TSTree → List NodeData
  | [] => []
  | t :: ts => TSTree.preorder t ++ TSTree.preorderList ts
end

/-- `lib.rs`: `ASTGraph` — the graph, the back-reference map
`node_map : NodeIndex → original parser id`, the source text, a title. -/
structure ASTGraph where
  graph : DiGraph
  node_map : List (Nat × Nat)
  source : String
  title : String
deriving DecidableEq, Repr, Inhabited

namespace DiGraph

/-- petgraph `graph.node_indices()`. -/
def node_indices (g : DiGraph) : List Nat := List.range g.nodes.length

/-- petgraph `graph.edge_indices()`. -/
def edge_indices (g : DiGraph) : List Nat := List.range g.edges.length

/-- petgraph `graph[i]` node weight access (total model of the panicking
index; only used at valid indices). -/
def weight (g : DiGraph) (i : Nat) : GNode := g.nodes.getD i default

/-- petgraph `graph.neighbors(u)` for a `Directed` graph: targets of the
outgoing edges of `u` (petgraph iterates them most-recent-edge first). -/
def successors (g : DiGraph) (u : Nat) : List Nat :=
  ((g.edges.filter (fun e => e.source == u)).map Edge.target).reverse

/-- petgraph `Reversed(&graph)` adapter: every edge flows target→source. -/
def reversed (g : DiGraph) : DiGraph :=
  { nodes := g.nodes, edges := g.edges.map (fun e => { source := e.target, target := e.source }) }

end DiGraph

/-- One `Bfs::next` neighbour sweep: `for succ in neighbors(node) { if
discovered.visit(succ) { queue.push_back(succ) } }`. -/
def bfsStep (g : DiGraph) (node : Nat) (disc queue : List Nat) : List Nat × List Nat :=
  (g.successors node).foldl
    (fun acc s => if acc.1.contains s then acc else (acc.1 ++ [s], acc.2 ++ [s]))
    (disc, queue)

/-- The petgraph `Bfs` loop (`while let Some(node) = bfs.next(&graph)`),
driven by fuel; `disc` is the discovered set, `queue` the pending queue.
The returned list is the visit order. -/
def bfsAux (g : DiGraph) : Nat → List Nat → List Nat → List Nat
  | 0, _, _ => []
  | _ + 1, [], _ => []
  | fuel + 1, node :: queue, disc =>
    let p := bfsStep g node disc queue
    node :: bfsAux g fuel p.2 p.1

/-- `Bfs::new(&graph, start)` followed by draining the iterator: start is
discovered and queued up front.  The fuel `2*|E|+2` dominates the loop
measure `2*(1+|E|-|disc|)+|queue|`, so the traversal always completes. -/
def DiGraph.bfsList (g : DiGraph) (start : Nat) : List Nat :=
  bfsAux g (2 * g.edges.length + 2) [start] [start]

/-- The petgraph `Dfs` loop: pop, skip if already discovered, otherwise
mark, push the not-yet-discovered successors (stack top is the list head)
and yield the node. -/
def dfsAux (g : DiGraph) : Nat → List Nat → List Nat → List Nat
  | 0, _, _ => []
  | _ + 1, [], _ => []
  | fuel + 1, node :: stack, disc =>
    if disc.contains node then dfsAux g fuel stack disc
    else
      let disc2 := disc ++ [node]
      let stack2 := (g.successors node).foldl
        (fun st s => if disc2.contains s then st else s :: st) stack
      node :: dfsAux g fuel stack2 disc2

/-- `Dfs::new(&graph, start)` followed by draining the iterator.  The fuel
`(|E|+1)^2+1` dominates the loop measure `|stack|+(1+|E|-|disc|)*(1+|E|)`. -/
def DiGraph.dfsList (g : DiGraph) (start : Nat) : List Nat :=
  dfsAux g ((g.edges.length + 1) * (g.edges.length + 1) + 1) [start] []

/-- Rust byte slice `&s[a..b]`, modelled at character granularity. -/
def strSlice (s : String) (a b : Nat) : String :=
  ((s.data.drop a).take (b - a)).asString

/-- Nodes of `g` reachable from `s` by at most `n` outgoing edges (the
layered closure used to model the uniform-cost `astar` call). -/
def DiGraph.reachIn (g : DiGraph) (s : Nat) : Nat → List Nat
  | 0 => [s]
  | n + 1 =>
    let prev := g.reachIn s n
    prev ++ prev.flatMap g.successors

/-- Reconstruct a minimum-length path ending at `t`, walking one shortest
layer back at each step. -/
def DiGraph.buildPath (g : DiGraph) (s : Nat) : Nat → Nat → List Nat
  | 0, t => [t]
  | n + 1, t =>
    match g.edges.find? (fun e => e.target == t && (g.reachIn s n).contains e.source) with
    | some e => g.buildPath s n e.source ++ [t]
    | none => [t]

namespace ASTGraph

/-- `ASTGraph::new(source_code)`. -/
def new (source_code : String) : ASTGraph :=
  { graph := { nodes := [], edges := [] }
    node_map := []
    source := source_code
    title := "" }

/-- `ASTGraph::title()`. -/
def getTitle (g : ASTGraph) : String := g.title

/-- `ASTGraph::set_title(new_title)`. -/
def set_title (g : ASTGraph) (new_title : String) : ASTGraph :=
  { g with title := new_title }

/-- `ASTGraph::name()`: formats the backing id of graph index 1; the Rust
code `unwrap`s, so an absent index 1 is a panic, modelled as `none`. -/
def name (g : ASTGraph) : Option String :=
  (mapGet g.node_map 1).map (fun root_node_id => "node_" ++ toString root_node_id ++ "_graph")

/-- `ASTGraph::node_count()` (`self.node_map.len()`). -/
def node_count (g : ASTGraph) : Nat := g.node_map.length

/-- `ASTGraph::add_node(tree_node)`: push the vertex, record its parser id
in the back-reference map, return the fresh index. -/
def add_node (g : ASTGraph) (tree_node : NodeData) : ASTGraph × Nat :=
  let new_node : GNode := { id := tree_node.id, kind_id := tree_node.kind_id, range := tree_node.range }
  let node_index := g.graph.nodes.length
  ({ g with
      graph := { g.graph with nodes := g.graph.nodes ++ [new_node] }
      node_map := mapInsert g.node_map node_index tree_node.id },
   node_index)

/-- `ASTGraph::get_node(id)`. -/
def get_node (g : ASTGraph) (id : Nat) : Option Nat := mapGet g.node_map id

/-- `ASTGraph::get_node_source(id)`. -/
def get_node_source (g : ASTGraph) (id : Nat) : String :=
  let graph_node := g.graph.weight id
  strSlice g.source graph_node.range.start_byte graph_node.range.end_byte

/-- `ASTGraph::add_edge(parent, child)`. -/
def add_edge (g : ASTGraph) (parent child : Nat) : ASTGraph :=
  { g with graph := { g.graph with edges := g.graph.edges ++ [{ source := parent, target := child }] } }

mutual
/-- `ASTGraph::traverse_and_build(tree_node, parent)`: add the node, add
the edge from the parent (when any), recurse into the children in order. -/
def traverse_and_build (g : ASTGraph) : TSTree → Option Nat → ASTGraph
  | .node d children, parent =>
    let r := g.add_node d
    let g2 := match parent with
      | some parent_node => r.1.add_edge parent_node r.2
      | none => r.1
    ASTGraph.traverseList g2 children r.2
/-- The `for idx in 0..child_count` loop of `traverse_and_build`. -/
def traverseList (g : ASTGraph) : List TSTree → Nat → ASTGraph
  | [], _ => g
  | t :: ts, parent => ASTGraph.traverseList (g.traverse_and_build t (some parent)) ts parent
end

/-- `ASTGraph::build_from_tree(tree)`. -/
def build_from_tree (g : ASTGraph) (tree : TSTree) : ASTGraph :=
  g.traverse_and_build tree none

/-- `ASTGraph::collect_subgraph_nodes(start_node)`: the set of nodes a
`Bfs` from `start_node` visits (insertion into the `visited` set follows
discovery order). -/
def collect_subgraph_nodes (g : ASTGraph) (start_node : Nat) : List Nat :=
  g.graph.bfsList start_node

/-- `ASTGraph::create_subgraph(subgraph_nodes)`: fresh vertices for the
members (kind/id/range copied), `node_map` old→new, `original_mapping`
new→original parser id, then every original edge with both endpoints
inside.  `HashSet` iteration order is unspecified in Rust; the list order
of `subgraph_nodes` is used here. -/
def create_subgraph (g : ASTGraph) (subgraph_nodes : List Nat) : ASTGraph :=
  let st := subgraph_nodes.foldl
    (fun (acc : List GNode × List (Nat × Nat) × List (Nat × Nat)) node =>
      let new_node := acc.1.length
      (acc.1 ++ [g.graph.weight node],
       mapInsert acc.2.1 node new_node,
       mapInsert acc.2.2 new_node (g.graph.weight node).id))
    ([], [], [])
  let digraph_edges := g.graph.edges.foldl
    (fun es e =>
      if subgraph_nodes.contains e.source && subgraph_nodes.contains e.target then
        es ++ [Edge.mk ((mapGet st.2.1 e.source).getD 0) ((mapGet st.2.1 e.target).getD 0)]
      else es)
    []
  { graph := { nodes := st.1, edges := digraph_edges }
    node_map := st.2.2
    source := ""
    title := "" }

/-- `ASTGraph::extract_subgraphs(kinds_to_split_on)`. -/
def extract_subgraphs (g : ASTGraph) (kinds_to_split_on : List Nat) : List ASTGraph :=
  g.graph.node_indices.foldl
    (fun subgraphs node =>
      if kinds_to_split_on.contains (g.graph.weight node).kind_id then
        let node_range := (g.graph.weight node).range
        let split_source := strSlice g.source node_range.start_byte node_range.end_byte
        let subgraph_nodes := g.collect_subgraph_nodes node
        let subgraph := g.create_subgraph subgraph_nodes
        subgraphs ++ [{ subgraph with source := split_source }]
      else subgraphs)
    []

/-- `ASTGraph::to_serializable()`. -/
def to_serializable (g : ASTGraph) : SerializableGraph :=
  { nodes := g.graph.node_indices.map (fun n => g.graph.weight n)
    edges := g.graph.edge_indices.map (fun e =>
      let ep := g.graph.edges.getD e default
      { source := ep.source, target := ep.target }) }

/-- `ASTGraph::from_serializable(serializable_graph)`: reinsert the nodes
in list order (rebuilding the back-reference map from each vertex id),
re-add every edge, leave source and title empty. -/
def from_serializable (serializable_graph : SerializableGraph) : ASTGraph :=
  let st := serializable_graph.nodes.foldl
    (fun (acc : List GNode × List (Nat × Nat)) serialized_node =>
      (acc.1 ++ [serialized_node], mapInsert acc.2 acc.1.length serialized_node.id))
    ([], [])
  let graph_edges := serializable_graph.edges.foldl (fun es e => es ++ [e]) []
  { graph := { nodes := st.1, edges := graph_edges }
    node_map := st.2
    source := ""
    title := "" }

/-- `ASTGraph::bfs_iterator(start)`, drained. -/
def bfs_iterator (g : ASTGraph) (start_node : Nat) : List Nat :=
  g.graph.bfsList start_node

/-- `ASTGraph::dfs_iterator(start)`, drained. -/
def dfs_iterator (g : ASTGraph) (start_node : Nat) : List Nat :=
  g.graph.dfsList start_node

/-- `ASTGraph::reversed_dfs_iterator(start)`: a `Dfs` over
`Reversed(&graph)`, drained. -/
def reversed_dfs_iterator (g : ASTGraph) (start_node : Nat) : List Nat :=
  g.graph.reversed.dfsList start_node

/-- `ASTGraph::path_from_to(start, goal)`: `petgraph::algo::astar` with
uniform edge cost 1 and zero heuristic, i.e. a minimum-edge-count path
when the goal is reachable, `None` otherwise (see the header comment). -/
def path_from_to (g : ASTGraph) (start_node goal : Nat) : Option (List Nat) :=
  match (List.range (g.graph.edges.length + 2)).find?
      (fun n => (g.graph.reachIn start_node n).contains goal) with
  | some n => some (g.graph.buildPath start_node n goal)
  | none => none

end ASTGraph

/-! ### Association-map lemmas -/

theorem mapGet_nil (k : Nat) : mapGet [] k = none := rfl

theorem mapGet_cons_self (k v : Nat) (m : List (Nat × Nat)) :
    mapGet ((k, v) :: m) k = some v := by
  simp [mapGet, List.find?_cons]

theorem mapGet_cons_ne (a v k : Nat) (m : List (Nat × Nat)) (h : a ≠ k) :
    mapGet ((a, v) :: m) k = mapGet m k := by
  have hb : ((a, v).1 == k) = false := by simpa using h
  simp [mapGet, List.find?_cons, hb]

theorem mapGet_append_of_notMem (m₁ m₂ : List (Nat × Nat)) (k : Nat)
    (h : k ∉ m₁.map Prod.fst) : mapGet (m₁ ++ m₂) k = mapGet m₂ k := by
  induction m₁ with
  | nil => rfl
  | cons p m₁ ih =>
    obtain ⟨a, v⟩ := p
    simp only [List.map_cons, List.mem_cons] at h
    push_neg at h
    rw [List.cons_append, mapGet_cons_ne a v k _ (fun e => h.1 e.symm)]
    exact ih h.2

theorem mapGet_append_left (m₁ m₂ : List (Nat × Nat)) (k v : Nat)
    (h : mapGet m₁ k = some v) : mapGet (m₁ ++ m₂) k = some v := by
  induction m₁ with
  | nil => simp [mapGet] at h
  | cons p m₁ ih =>
    obtain ⟨a, w⟩ := p
    by_cases hak : a = k
    · subst hak
      rw [mapGet_cons_self] at h
      rw [List.cons_append, mapGet_cons_self]
      exact h
    · rw [mapGet_cons_ne a w k _ hak] at h
      rw [List.cons_append, mapGet_cons_ne a w k _ hak]
      exact ih h

theorem mapGet_none_of_notMem (m : List (Nat × Nat)) (k : Nat)
    (h : k ∉ m.map Prod.fst) : mapGet m k = none := by
  have := mapGet_append_of_notMem m [] k h
  simpa using this

theorem mapGet_isSome_of_mem (m : List (Nat × Nat)) (k : Nat)
    (h : k ∈ m.map Prod.fst) : (mapGet m k).isSome := by
  induction m with
  | nil => simp at h
  | cons p m ih =>
    obtain ⟨a, v⟩ := p
    by_cases hak : a = k
    · subst hak
      rw [mapGet_cons_self]
      rfl
    · rw [mapGet_cons_ne a v k _ hak]
      simp only [List.map_cons, List.mem_cons] at h
      rcases h with h | h
      · exact absurd h.symm hak
      · exact ih h

theorem mapGet_mem_of_some (m : List (Nat × Nat)) (k v : Nat)
    (h : mapGet m k = some v) : (k, v) ∈ m := by
  induction m with
  | nil => simp [mapGet] at h
  | cons p m ih =>
    obtain ⟨a, w⟩ := p
    by_cases hak : a = k
    · subst hak
      rw [mapGet_cons_self] at h
      cases h
      exact List.mem_cons_self _ _
    · rw [mapGet_cons_ne a w k _ hak] at h
      exact List.mem_cons_of_mem _ (ih h)

theorem mapInsert_of_fresh (m : List (Nat × Nat)) (k v : Nat)
    (h : k ∉ m.map Prod.fst) : mapInsert m k v = m ++ [(k, v)] := by
  unfold mapInsert
  congr 1
  rw [List.filter_eq_self]
  intro p hp
  simp only [bne_iff_ne, ne_eq]
  intro e
  exact h (e ▸ List.mem_map_of_mem Prod.fst hp)

/-- Pairs `(n, l₀), (n+1, l₁), ...` — the shape of a back-reference map
built by inserting fresh consecutive indices. -/
def idxPairs (n : Nat) : List Nat → List (Nat × Nat)
  | [] => []
  | a :: as => (n, a) :: idxPairs (n + 1) as

/-- Pairs `(l₀, n), (l₁, n+1), ...` — the shape of the old-index→new-index
map built by `create_subgraph`. -/
def posPairs (n : Nat) : List Nat → List (Nat × Nat)
  | [] => []
  | a :: as => (a, n) :: posPairs (n + 1) as

theorem idxPairs_append (n : Nat) (l₁ l₂ : List Nat) :
    idxPairs n (l₁ ++ l₂) = idxPairs n l₁ ++ idxPairs (n + l₁.length) l₂ := by
  induction l₁ generalizing n with
  | nil => simp [idxPairs]
  | cons a as ih =>
    simp only [List.cons_append, idxPairs, List.append_eq, ih (n + 1), List.length_cons]
    have harg : n + 1 + as.length = n + (as.length + 1) := by omega
    rw [harg]

theorem map_fst_idxPairs (n : Nat) (l : List Nat) :
    (idxPairs n l).map Prod.fst = List.range' n l.length := by
  induction l generalizing n with
  | nil => rfl
  | cons a as ih => simp [idxPairs, List.range'_succ, ih]

theorem length_idxPairs (n : Nat) (l : List Nat) :
    (idxPairs n l).length = l.length := by
  induction l generalizing n with
  | nil => rfl
  | cons a as ih => simp [idxPairs, ih]

theorem mapGet_idxPairs_lt (n : Nat) (l : List Nat) (k : Nat) (h : k < n) :
    mapGet (idxPairs n l) k = none := by
  apply mapGet_none_of_notMem
  rw [map_fst_idxPairs]
  intro hmem
  have := List.mem_range'_1.mp hmem
  omega

theorem mapGet_idxPairs_add (n : Nat) (l : List Nat) (j : Nat) :
    mapGet (idxPairs n l) (n + j) = l[j]? := by
  induction l generalizing n j with
  | nil => simp [idxPairs, mapGet]
  | cons a as ih =>
    cases j with
    | zero =>
      show mapGet ((n, a) :: idxPairs (n + 1) as) n = _
      rw [mapGet_cons_self]
      simp
    | succ j =>
      show mapGet ((n, a) :: idxPairs (n + 1) as) (n + (j + 1)) = _
      rw [mapGet_cons_ne _ _ _ _ (by omega)]
      have harg : n + (j + 1) = (n + 1) + j := by omega
      rw [harg, ih (n + 1) j]
      simp

theorem mapGet_idxPairs (n : Nat) (l : List Nat) (k : Nat) :
    mapGet (idxPairs n l) k = if n ≤ k then l[k - n]? else none := by
  by_cases h : n ≤ k
  · have hk : k = n + (k - n) := by omega
    rw [hk, mapGet_idxPairs_add]
    simp [h]
  · rw [mapGet_idxPairs_lt n l k (by omega)]
    simp [h]

theorem map_fst_posPairs (n : Nat) (l : List Nat) :
    (posPairs n l).map Prod.fst = l := by
  induction l generalizing n with
  | nil => rfl
  | cons a as ih => simp [posPairs, ih]

theorem mapGet_posPairs_of_notMem (n : Nat) (l : List Nat) (u : Nat) (h : u ∉ l) :
    mapGet (posPairs n l) u = none := by
  apply mapGet_none_of_notMem
  rwa [map_fst_posPairs]

theorem mapGet_posPairs_of_mem (n : Nat) (l : List Nat) (u : Nat)
    (hnd : l.Nodup) (h : u ∈ l) :
    mapGet (posPairs n l) u = some (n + l.indexOf u) := by
  induction l generalizing n with
  | nil => simp at h
  | cons a as ih =>
    by_cases hua : u = a
    · subst hua
      show mapGet ((u, n) :: posPairs (n + 1) as) u = _
      rw [mapGet_cons_self, List.indexOf_cons_self]
      rfl
    · show mapGet ((a, n) :: posPairs (n + 1) as) u = _
      rw [mapGet_cons_ne _ _ _ _ (fun e => hua e.symm)]
      have hmem : u ∈ as := by
        rcases List.mem_cons.mp h with h | h
        · exact absurd h hua
        · exact h
      rw [ih (n + 1) (List.nodup_cons.mp hnd).2 hmem]
      rw [List.indexOf_cons_ne _ (by exact fun e => hua e.symm)]
      congr 1
      omega

/-! ### Generic fold characterizations -/

theorem foldl_if_append {α β : Type} (p : α → Bool) (f : α → β) :
    ∀ (l : List α) (acc : List β),
      l.foldl (fun acc x => if p x then acc ++ [f x] else acc) acc
        = acc ++ (l.filter p).map f := by
  intro l
  induction l with
  | nil => simp
  | cons a as ih =>
    intro acc
    cases hpa : p a with
    | true => simp [List.foldl_cons, hpa, ih]
    | false => simp [List.foldl_cons, hpa, ih]

theorem foldl_append_singleton {α : Type} :
    ∀ (l : List α) (acc : List α),
      l.foldl (fun es e => es ++ [e]) acc = acc ++ l := by
  intro l
  induction l with
  | nil => simp
  | cons a as ih => intro acc; simp [List.foldl_cons, ih]

/-! ### Serialization round trip -/

theorem range_map_getD {α : Type} (d : α) :
    ∀ l : List α, (List.range l.length).map (fun i => l.getD i d) = l := by
  intro l
  apply List.ext_getElem
  · simp
  · intro i h1 h2
    simp only [List.getElem_map, List.getElem_range]
    simp [List.getD_eq_getElem?_getD, List.getElem?_eq_getElem h2]

theorem to_serializable_eq (g : ASTGraph) :
    g.to_serializable = { nodes := g.graph.nodes, edges := g.graph.edges } := by
  unfold ASTGraph.to_serializable DiGraph.node_indices DiGraph.edge_indices DiGraph.weight
  congr 1
  · exact range_map_getD default g.graph.nodes
  · have heta : (fun e => Edge.mk (g.graph.edges.getD e default).source
        (g.graph.edges.getD e default).target) = fun e => g.graph.edges.getD e default := by
      funext e
      rfl
    show (List.range g.graph.edges.length).map _ = _
    rw [heta]
    exact range_map_getD default g.graph.edges

theorem from_ser_fold (l : List GNode) :
    ∀ (ns : List GNode) (m : List (Nat × Nat)),
      (∀ k ∈ m.map Prod.fst, k < ns.length) →
      l.foldl (fun acc sn => (acc.1 ++ [sn], mapInsert acc.2 acc.1.length sn.id)) (ns, m)
        = (ns ++ l, m ++ idxPairs ns.length (l.map GNode.id)) := by
  induction l with
  | nil =>
    intro ns m h
    simp [idxPairs]
  | cons a as ih =>
    intro ns m h
    simp only [List.foldl_cons]
    have hfresh : ns.length ∉ m.map Prod.fst := fun hm => absurd (h _ hm) (lt_irrefl _)
    rw [mapInsert_of_fresh _ _ _ hfresh]
    rw [ih (ns ++ [a]) (m ++ [(ns.length, a.id)]) ?_]
    · have hlen : (ns ++ [a]).length = ns.length + 1 := by simp
      simp only [List.map_cons, idxPairs, hlen]
      rw [Prod.mk.injEq]
      constructor <;> simp
    · intro k hk
      simp only [List.map_append, List.mem_append] at hk
      rcases hk with hk | hk
      · have := h _ hk
        simp only [List.length_append, List.length_singleton]
        omega
      · simp at hk
        simp [hk]

theorem from_serializable_eq (sg : SerializableGraph) :
    ASTGraph.from_serializable sg =
      { graph := { nodes := sg.nodes, edges := sg.edges }
        node_map := idxPairs 0 (sg.nodes.map GNode.id)
        source := ""
        title := "" } := by
  unfold ASTGraph.from_serializable
  rw [from_ser_fold sg.nodes [] [] (by simp)]
  rw [foldl_append_singleton]
  simp

/-- C2: serializing with `to_serializable` and rebuilding with
`from_serializable` preserves the vertex list (hence the vertex count and
every vertex's id/kind/range payload) and the edge list (hence the edge
count and which positions connect to which) exactly, while the rebuilt
container's source buffer and title are both empty.  The hypothesis says
the input's back-reference map has one entry per vertex, which holds for
every container the API builds (`node_count` reads that map). -/
theorem claim_C2_round_trip (g : ASTGraph)
    (hcount : g.node_map.length = g.graph.nodes.length) :
    (ASTGraph.from_serializable g.to_serializable).graph.nodes = g.graph.nodes ∧
    (ASTGraph.from_serializable g.to_serializable).graph.edges = g.graph.edges ∧
    (ASTGraph.from_serializable g.to_serializable).node_count = g.node_count ∧
    (ASTGraph.from_serializable g.to_serializable).source = "" ∧
    (ASTGraph.from_serializable g.to_serializable).title = "" := by
  rw [to_serializable_eq, from_serializable_eq]
  refine ⟨rfl, rfl, ?_, rfl, rfl⟩
  show (idxPairs 0 (g.graph.nodes.map GNode.id)).length = g.node_count
  rw [length_idxPairs]
  simp [ASTGraph.node_count, hcount]

/-- A sample range, tree and built graph used by the concrete witnesses. -/
def exRange : GRange := ⟨0, 1, ⟨0, 0⟩, ⟨0, 1⟩⟩

/-- A two-node tree: root (id 10, kind 0) with one child (id 11, kind 1). -/
def exTree : TSTree := .node ⟨10, 0, exRange⟩ [.node ⟨11, 1, exRange⟩ []]

/-- The graph the repository builds from `exTree`. -/
def exGraph : ASTGraph := (ASTGraph.new "ab").build_from_tree exTree

theorem claim_C2_round_trip_witness :
    exGraph.node_map.length = exGraph.graph.nodes.length ∧
    ((ASTGraph.from_serializable exGraph.to_serializable).graph.nodes = exGraph.graph.nodes ∧
     (ASTGraph.from_serializable exGraph.to_serializable).graph.edges = exGraph.graph.edges ∧
     (ASTGraph.from_serializable exGraph.to_serializable).node_count = exGraph.node_count ∧
     (ASTGraph.from_serializable exGraph.to_serializable).source = "" ∧
     (ASTGraph.from_serializable exGraph.to_serializable).title = "") :=
  ⟨rfl, claim_C2_round_trip exGraph rfl⟩


/-! ### Building from a tree -/

/-- The vertex payload `add_node` stores for a parser node. -/
def NodeData.toGNode (d : NodeData) : GNode :=
  { id := d.id, kind_id := d.kind_id, range := d.range }

theorem add_node_nodes (g : ASTGraph) (d : NodeData) :
    (g.add_node d).1.graph.nodes = g.graph.nodes ++ [d.toGNode] := rfl

theorem add_node_idx (g : ASTGraph) (d : NodeData) :
    (g.add_node d).2 = g.graph.nodes.length := rfl

theorem add_node_edges (g : ASTGraph) (d : NodeData) :
    (g.add_node d).1.graph.edges = g.graph.edges := rfl

theorem add_node_map (g : ASTGraph) (d : NodeData) :
    (g.add_node d).1.node_map = mapInsert g.node_map g.graph.nodes.length d.id := rfl

theorem add_edge_nodes (g : ASTGraph) (p c : Nat) :
    (g.add_edge p c).graph.nodes = g.graph.nodes := rfl

theorem add_edge_edges (g : ASTGraph) (p c : Nat) :
    (g.add_edge p c).graph.edges = g.graph.edges ++ [{ source := p, target := c }] := rfl

theorem add_edge_map (g : ASTGraph) (p c : Nat) :
    (g.add_edge p c).node_map = g.node_map := rfl

theorem TSTree.count_pos (t : TSTree) : 0 < t.count := by
  cases t with
  | node d children =>
    show 0 < 1 + TSTree.countList children
    omega

mutual
theorem preorder_length (t : TSTree) : t.preorder.length = t.count := by
  cases t with
  | node d children =>
    show (d :: TSTree.preorderList children).length = 1 + TSTree.countList children
    rw [List.length_cons, preorderList_length children]
    omega
theorem preorderList_length (ts : List TSTree) :
    (TSTree.preorderList ts).length = TSTree.countList ts := by
  cases ts with
  | nil => rfl
  | cons t ts =>
    show (t.preorder ++ TSTree.preorderList ts).length = t.count + TSTree.countList ts
    rw [List.length_append, preorder_length t, preorderList_length ts]
end

mutual
/-- Effect of `traverse_and_build t (some q)` on an arbitrary intermediate
builder state: it appends the preorder vertices of `t`, extends the
back-reference map with consecutive fresh indices, adds one edge targeting
every fresh index, and every added edge points from a lower index to a
higher one. -/
theorem traverse_spec (t : TSTree) : ∀ (g : ASTGraph) (q : Nat),
    (g.traverse_and_build t (some q)).graph.nodes
        = g.graph.nodes ++ t.preorder.map NodeData.toGNode ∧
    (g.node_map.map Prod.fst = List.range g.graph.nodes.length →
      (g.traverse_and_build t (some q)).node_map
        = g.node_map ++ idxPairs g.graph.nodes.length (t.preorder.map NodeData.id)) ∧
    (g.traverse_and_build t (some q)).graph.edges.map Edge.target
        = g.graph.edges.map Edge.target ++ List.range' g.graph.nodes.length t.count ∧
    (q < g.graph.nodes.length →
      ∀ e ∈ (g.traverse_and_build t (some q)).graph.edges,
        e ∈ g.graph.edges ∨ e.source < e.target) := by
  cases t with
  | node d children =>
    intro g q
    have ht : g.traverse_and_build (TSTree.node d children) (some q)
        = ASTGraph.traverseList ((g.add_node d).1.add_edge q g.graph.nodes.length)
            children g.graph.nodes.length := by
      simp only [ASTGraph.traverse_and_build, add_node_idx]
    set n := g.graph.nodes.length with hn
    set g2 := (g.add_node d).1.add_edge q n with hg2
    have hnodes2 : g2.graph.nodes = g.graph.nodes ++ [d.toGNode] := by
      rw [hg2, add_edge_nodes, add_node_nodes]
    have hlen2 : g2.graph.nodes.length = n + 1 := by
      rw [hnodes2, List.length_append, hn]
      rfl
    have hedges2 : g2.graph.edges = g.graph.edges ++ [{ source := q, target := n }] := by
      rw [hg2, add_edge_edges, add_node_edges]
    have hmap2 : g2.node_map = mapInsert g.node_map n d.id := by
      rw [hg2, add_edge_map, add_node_map]
    obtain ⟨hA, hB, hC, hD⟩ := traverseList_spec children g2 n
    rw [hlen2] at hB hC hD
    refine ⟨?_, ?_, ?_, ?_⟩
    · rw [ht, hA, hnodes2]
      show _ = g.graph.nodes ++ (d :: TSTree.preorderList children).map NodeData.toGNode
      simp
    · intro hkeys
      have hfresh : n ∉ g.node_map.map Prod.fst := by
        rw [hkeys]
        simp
      have hkeys2 : g2.node_map.map Prod.fst = List.range (n + 1) := by
        rw [hmap2, mapInsert_of_fresh _ _ _ hfresh, List.map_append, hkeys]
        simp [List.range_succ]
      rw [ht, hB hkeys2, hmap2, mapInsert_of_fresh _ _ _ hfresh]
      show _ = g.node_map ++ idxPairs n ((d :: TSTree.preorderList children).map NodeData.id)
      simp only [List.map_cons, idxPairs, List.append_assoc]
      rfl
    · rw [ht, hC, hedges2]
      show _ = g.graph.edges.map Edge.target
          ++ List.range' n (1 + TSTree.countList children)
      rw [Nat.add_comm 1 (TSTree.countList children)]
      simp [List.range'_succ]
    · intro hq e he
      rw [ht] at he
      rcases hD (by omega) e he with h2 | h2
      · rw [hedges2] at h2
        rcases List.mem_append.mp h2 with h3 | h3
        · exact Or.inl h3
        · right
          have : e = { source := q, target := n } := by simpa using h3
          rw [this]
          exact hq
      · exact Or.inr h2

/-- Effect of the child loop `traverseList ts q` on an intermediate
builder state with parent index `q`. -/
theorem traverseList_spec (ts : List TSTree) : ∀ (g : ASTGraph) (q : Nat),
    (ASTGraph.traverseList g ts q).graph.nodes
        = g.graph.nodes ++ (TSTree.preorderList ts).map NodeData.toGNode ∧
    (g.node_map.map Prod.fst = List.range g.graph.nodes.length →
      (ASTGraph.traverseList g ts q).node_map
        = g.node_map ++ idxPairs g.graph.nodes.length ((TSTree.preorderList ts).map NodeData.id)) ∧
    (ASTGraph.traverseList g ts q).graph.edges.map Edge.target
        = g.graph.edges.map Edge.target
            ++ List.range' g.graph.nodes.length (TSTree.countList ts) ∧
    (q < g.graph.nodes.length →
      ∀ e ∈ (ASTGraph.traverseList g ts q).graph.edges,
        e ∈ g.graph.edges ∨ e.source < e.target) := by
  cases ts with
  | nil =>
    intro g q
    refine ⟨by simp [ASTGraph.traverseList, TSTree.preorderList], ?_, ?_, ?_⟩
    · intro _
      simp [ASTGraph.traverseList, TSTree.preorderList, idxPairs]
    · simp [ASTGraph.traverseList, TSTree.countList, List.range']
    · intro _ e he
      exact Or.inl (by simpa [ASTGraph.traverseList] using he)
  | cons t ts =>
    intro g q
    have ht : ASTGraph.traverseList g (t :: ts) q
        = ASTGraph.traverseList (g.traverse_and_build t (some q)) ts q := by
      simp only [ASTGraph.traverseList]
    set n := g.graph.nodes.length with hn
    set g1 := g.traverse_and_build t (some q) with hg1
    obtain ⟨h1A, h1B, h1C, h1D⟩ := traverse_spec t g q
    have hlen1 : g1.graph.nodes.length = n + t.count := by
      rw [hg1, h1A, List.length_append, List.length_map, preorder_length]
    obtain ⟨h2A, h2B, h2C, h2D⟩ := traverseList_spec ts g1 q
    rw [hlen1] at h2B h2C h2D
    refine ⟨?_, ?_, ?_, ?_⟩
    · rw [ht, h2A, hg1, h1A]
      show _ = g.graph.nodes ++ (t.preorder ++ TSTree.preorderList ts).map NodeData.toGNode
      simp
    · intro hkeys
      have hkeys1 : g1.node_map.map Prod.fst = List.range (n + t.count) := by
        rw [hg1, h1B hkeys, List.map_append, hkeys, map_fst_idxPairs]
        rw [List.length_map, preorder_length]
        rw [List.range_eq_range', List.range_eq_range']
        have hra := List.range'_append 0 n t.count 1
        simpa [Nat.add_comm] using hra
      rw [ht, h2B hkeys1, hg1, h1B hkeys]
      show _ = g.node_map ++ idxPairs n ((t.preorder ++ TSTree.preorderList ts).map NodeData.id)
      rw [List.map_append, idxPairs_append, List.length_map, preorder_length]
      simp [List.append_assoc]
    · rw [ht, h2C, hg1, h1C]
      show _ = g.graph.edges.map Edge.target
          ++ List.range' n (t.count + TSTree.countList ts)
      rw [List.append_assoc]
      congr 1
      simp [List.range'_append, Nat.add_comm]
    · intro hq e he
      rw [ht] at he
      rcases h2D (by have := t.count_pos; omega) e he with h2 | h2
      · rw [hg1] at h2
        exact h1D hq e h2
      · exact Or.inr h2
end

theorem build_unfold (s : String) (d : NodeData) (children : List TSTree) :
    (ASTGraph.new s).build_from_tree (.node d children)
      = ASTGraph.traverseList ((ASTGraph.new s).add_node d).1 children 0 := by
  simp only [ASTGraph.build_from_tree, ASTGraph.traverse_and_build, add_node_idx]
  rfl

theorem build_nodes (s : String) (t : TSTree) :
    ((ASTGraph.new s).build_from_tree t).graph.nodes = t.preorder.map NodeData.toGNode := by
  cases t with
  | node d children =>
    rw [build_unfold]
    obtain ⟨hA, _, _, _⟩ := traverseList_spec children ((ASTGraph.new s).add_node d).1 0
    rw [hA]
    rfl

theorem build_node_map (s : String) (t : TSTree) :
    ((ASTGraph.new s).build_from_tree t).node_map
      = idxPairs 0 (t.preorder.map NodeData.id) := by
  cases t with
  | node d children =>
    rw [build_unfold]
    obtain ⟨_, hB, _, _⟩ := traverseList_spec children ((ASTGraph.new s).add_node d).1 0
    rw [hB (by rfl)]
    rfl

theorem build_edge_targets (s : String) (t : TSTree) :
    ((ASTGraph.new s).build_from_tree t).graph.edges.map Edge.target
      = List.range' 1 (t.count - 1) := by
  cases t with
  | node d children =>
    rw [build_unfold]
    obtain ⟨_, _, hC, _⟩ := traverseList_spec children ((ASTGraph.new s).add_node d).1 0
    rw [hC]
    show List.range' 1 (TSTree.countList children) = _
    show _ = List.range' 1 (1 + TSTree.countList children - 1)
    congr 1
    omega

theorem build_edges_lt (s : String) (t : TSTree) :
    ∀ e ∈ ((ASTGraph.new s).build_from_tree t).graph.edges, e.source < e.target := by
  cases t with
  | node d children =>
    rw [build_unfold]
    obtain ⟨_, _, _, hD⟩ := traverseList_spec children ((ASTGraph.new s).add_node d).1 0
    intro e he
    rcases hD (by show 0 < 1; omega) e he with h | h
    · simp [ASTGraph.new, ASTGraph.add_node] at h
    · exact h

theorem build_edge_count (s : String) (t : TSTree) :
    ((ASTGraph.new s).build_from_tree t).graph.edges.length = t.count - 1 := by
  have := congrArg List.length (build_edge_targets s t)
  simpa using this

theorem build_node_count (s : String) (t : TSTree) :
    ((ASTGraph.new s).build_from_tree t).node_count = t.count := by
  show ((ASTGraph.new s).build_from_tree t).node_map.length = t.count
  rw [build_node_map, length_idxPairs, List.length_map, preorder_length]

theorem build_nodes_length (s : String) (t : TSTree) :
    ((ASTGraph.new s).build_from_tree t).graph.nodes.length = t.count := by
  rw [build_nodes, List.length_map, preorder_length]

/-- C1: building from a tree with `N` nodes yields a graph with exactly
`N` vertices (both as the stored vertex list and as `node_count`) and
`N - 1` edges, and every non-root vertex `i` (`0 < i < N`; index 0 is the
root) is the target of exactly one edge. -/
theorem claim_C1_build_counts (s : String) (t : TSTree) (i : Nat)
    (h0 : 0 < i) (hi : i < t.count) :
    ((ASTGraph.new s).build_from_tree t).node_count = t.count ∧
    ((ASTGraph.new s).build_from_tree t).graph.nodes.length = t.count ∧
    ((ASTGraph.new s).build_from_tree t).graph.edges.length = t.count - 1 ∧
    (((ASTGraph.new s).build_from_tree t).graph.edges.filter
        (fun e => e.target == i)).length = 1 := by
  refine ⟨build_node_count s t, build_nodes_length s t, build_edge_count s t, ?_⟩
  have h1 : (((ASTGraph.new s).build_from_tree t).graph.edges.filter
        (fun e => e.target == i)).length
      = (((ASTGraph.new s).build_from_tree t).graph.edges.map Edge.target).count i := by
    rw [List.count, List.countP_map, ← List.countP_eq_length_filter]
    rfl
  rw [h1, build_edge_targets]
  exact List.count_eq_one_of_mem (List.nodup_range' 1 (t.count - 1))
    (List.mem_range'_1.mpr ⟨by omega, by omega⟩)

theorem claim_C1_build_counts_witness :
    0 < 1 ∧ 1 < exTree.count ∧
    (((ASTGraph.new "ab").build_from_tree exTree).node_count = exTree.count ∧
     ((ASTGraph.new "ab").build_from_tree exTree).graph.nodes.length = exTree.count ∧
     ((ASTGraph.new "ab").build_from_tree exTree).graph.edges.length = exTree.count - 1 ∧
     (((ASTGraph.new "ab").build_from_tree exTree).graph.edges.filter
        (fun e => e.target == 1)).length = 1) :=
  ⟨Nat.one_pos, by decide, claim_C1_build_counts "ab" exTree 1 (by decide) (by decide)⟩

/-- C8: `get_node` is total: it returns `none` exactly when the index is
absent from the back-reference map, any `some` answer is an id actually
recorded for that index, and on a graph built from a tree it returns the
original parser id of the `i`-th preorder node for every index `i`
(`none` beyond the vertex count) — it never fails. -/
theorem claim_C8_get_node_total (g : ASTGraph) (i : Nat) (s : String) (t : TSTree) :
    (g.get_node i = none ↔ i ∉ g.node_map.map Prod.fst) ∧
    (∀ v, g.get_node i = some v → (i, v) ∈ g.node_map) ∧
    ((ASTGraph.new s).build_from_tree t).get_node i
      = (t.preorder.map NodeData.id)[i]? := by
  refine ⟨⟨?_, ?_⟩, ?_, ?_⟩
  · intro hnone hmem
    have := mapGet_isSome_of_mem g.node_map i hmem
    rw [show mapGet g.node_map i = g.get_node i from rfl, hnone] at this
    simp at this
  · exact fun h => mapGet_none_of_notMem g.node_map i h
  · exact fun v h => mapGet_mem_of_some g.node_map i v h
  · show mapGet ((ASTGraph.new s).build_from_tree t).node_map i = _
    rw [build_node_map, mapGet_idxPairs]
    simp

theorem claim_C8_get_node_total_witness :
    (exGraph.get_node 5 = none ↔ 5 ∉ exGraph.node_map.map Prod.fst) ∧
    (∀ v, exGraph.get_node 5 = some v → (5, v) ∈ exGraph.node_map) ∧
    ((ASTGraph.new "ab").build_from_tree exTree).get_node 5
      = (exTree.preorder.map NodeData.id)[5]? :=
  claim_C8_get_node_total exGraph 5 "ab" exTree

/-- C9: `name` formats the backing parser id of graph index 1 (the second
vertex ever inserted): it returns `node_<id>_graph` whenever that index is
present in the back-reference map, fails (modelled `none`, the Rust code
`unwrap`s) whenever it is absent, and on a graph built from a
single-vertex tree (fewer than two vertices) it fails; on any built graph
it is the formatted second preorder id when that exists. -/
theorem claim_C9_name_root_convention (g : ASTGraph) (s : String) (t : TSTree) :
    (∀ v, g.get_node 1 = some v →
      g.name = some ("node_" ++ toString v ++ "_graph")) ∧
    (g.get_node 1 = none → g.name = none) ∧
    (t.count = 1 → ((ASTGraph.new s).build_from_tree t).name = none) ∧
    ((ASTGraph.new s).build_from_tree t).name
      = ((t.preorder.map NodeData.id)[1]?).map
          (fun root_node_id => "node_" ++ toString root_node_id ++ "_graph") := by
  have hbuilt : mapGet ((ASTGraph.new s).build_from_tree t).node_map 1
      = (t.preorder.map NodeData.id)[1]? := by
    rw [build_node_map, mapGet_idxPairs]
    simp
  refine ⟨?_, ?_, ?_, ?_⟩
  · intro v h
    show (mapGet g.node_map 1).map _ = _
    rw [show mapGet g.node_map 1 = some v from h]
    rfl
  · intro h
    show (mapGet g.node_map 1).map _ = _
    rw [show mapGet g.node_map 1 = none from h]
    rfl
  · intro hone
    show (mapGet ((ASTGraph.new s).build_from_tree t).node_map 1).map _ = _
    rw [hbuilt]
    have hlen : (t.preorder.map NodeData.id).length = 1 := by
      rw [List.length_map, preorder_length, hone]
    rw [List.getElem?_eq_none (by omega)]
    rfl
  · show (mapGet ((ASTGraph.new s).build_from_tree t).node_map 1).map _ = _
    rw [hbuilt]

theorem claim_C9_name_root_convention_witness :
    exGraph.get_node 1 = some 11 ∧
    exGraph.name = some ("node_" ++ toString 11 ++ "_graph") :=
  ⟨by decide, (claim_C9_name_root_convention exGraph "ab" exTree).1 11 (by decide)⟩

/-- C10: for a start vertex equal to the goal, `path_from_to` immediately
returns the singleton path `[x]` (the `astar` goal test precedes any edge
expansion), not the "no path" result. -/
theorem claim_C10_self_path (g : ASTGraph) (x : Nat) (hx : x < g.graph.nodes.length) :
    g.path_from_to x x = some [x] := by
  unfold ASTGraph.path_from_to
  have hp0 : ((g.graph.reachIn x 0).contains x) = true := by
    simp [DiGraph.reachIn]
  have hfind : (List.range (g.graph.edges.length + 2)).find?
      (fun n => (g.graph.reachIn x n).contains x) = some 0 := by
    rw [show g.graph.edges.length + 2 = (g.graph.edges.length + 1) + 1 from rfl]
    rw [List.range_succ_eq_map, List.find?_cons, hp0]
  rw [hfind]
  rfl

theorem claim_C10_self_path_witness :
    0 < exGraph.graph.nodes.length ∧ exGraph.path_from_to 0 0 = some [0] :=
  ⟨by decide, claim_C10_self_path exGraph 0 (by decide)⟩

/-! ### Reachability along outgoing edges -/

/-- `x` is reachable from `s` by following outgoing edges of `g`. -/
inductive Reachable (g : DiGraph) (s : Nat) : Nat → Prop
  | refl : Reachable g s s
  | tail : ∀ {u v : Nat}, Reachable g s u → v ∈ g.successors u → Reachable g s v

theorem mem_successors {g : DiGraph} {u v : Nat} :
    v ∈ g.successors u ↔ ({ source := u, target := v } : Edge) ∈ g.edges := by
  unfold DiGraph.successors
  rw [List.mem_reverse, List.mem_map]
  constructor
  · rintro ⟨e, he, rfl⟩
    rw [List.mem_filter] at he
    obtain ⟨he1, he2⟩ := he
    have hs : e.source = u := by simpa using he2
    obtain ⟨es, et⟩ := e
    cases hs
    exact he1
  · intro h
    exact ⟨{ source := u, target := v }, List.mem_filter.mpr ⟨h, by simp⟩, rfl⟩

theorem Reachable.trans {g : DiGraph} {s u v : Nat}
    (h1 : Reachable g s u) (h2 : Reachable g u v) : Reachable g s v := by
  induction h2 with
  | refl => exact h1
  | tail _ hstep ih => exact Reachable.tail ih hstep

theorem Reachable.head {g : DiGraph} {u v x : Nat}
    (hstep : v ∈ g.successors u) (h : Reachable g v x) : Reachable g u x :=
  Reachable.trans (Reachable.tail Reachable.refl hstep) h

theorem mem_successors_reversed {g : DiGraph} {u v : Nat} :
    v ∈ g.reversed.successors u ↔ u ∈ g.successors v := by
  rw [mem_successors, mem_successors]
  show _ ∈ g.edges.map _ ↔ _
  constructor
  · intro h
    rw [List.mem_map] at h
    obtain ⟨e, he, heq⟩ := h
    obtain ⟨es, et⟩ := e
    cases heq
    exact he
  · intro h
    exact List.mem_map.mpr ⟨{ source := v, target := u }, h, rfl⟩

theorem reachable_reversed {g : DiGraph} {s x : Nat} :
    Reachable g.reversed s x ↔ Reachable g x s := by
  constructor
  · intro h
    induction h with
    | refl => exact Reachable.refl
    | tail _ hstep ih => exact Reachable.head (mem_successors_reversed.mp hstep) ih
  · intro h
    induction h with
    | refl => exact Reachable.refl
    | tail _ hstep ih =>
      exact Reachable.head (mem_successors_reversed.mpr hstep) ih

/-- `p` is a vertex path of `g` from `a` to `b` (consecutive elements are
edges; a single vertex is the zero-edge path). -/
inductive IsPath (g : DiGraph) : Nat → Nat → List Nat → Prop
  | single : ∀ a, IsPath g a a [a]
  | cons : ∀ {a b c : Nat} {p : List Nat},
      ({ source := a, target := b } : Edge) ∈ g.edges →
      IsPath g b c p → IsPath g a c (a :: p)

theorem isPath_start {g : DiGraph} {a b : Nat} {p : List Nat}
    (h : IsPath g a b p) : ∃ q, p = a :: q := by
  cases h with
  | single => exact ⟨[], rfl⟩
  | cons _ _ => exact ⟨_, rfl⟩

theorem isPath_singleton {g : DiGraph} {a b c : Nat}
    (h : IsPath g a b [c]) : b = a ∧ c = a := by
  cases h with
  | single => exact ⟨rfl, rfl⟩
  | cons hedge htail => obtain ⟨q, hq⟩ := isPath_start htail; simp at hq

theorem isPath_append_edge {g : DiGraph} {a b c : Nat} {p : List Nat}
    (h : IsPath g a b p) (hedge : ({ source := b, target := c } : Edge) ∈ g.edges) :
    IsPath g a c (p ++ [c]) := by
  induction h with
  | single a => exact IsPath.cons hedge (IsPath.single c)
  | cons he _ ih => exact IsPath.cons he (ih hedge)

theorem reachable_iff_isPath {g : DiGraph} {a b : Nat} :
    Reachable g a b ↔ ∃ p, IsPath g a b p := by
  constructor
  · intro h
    induction h with
    | refl => exact ⟨[a], IsPath.single a⟩
    | tail _ hstep ih =>
      obtain ⟨p, hp⟩ := ih
      exact ⟨p ++ [_], isPath_append_edge hp (mem_successors.mp hstep)⟩
  · rintro ⟨p, hp⟩
    induction hp with
    | single a => exact Reachable.refl
    | cons hedge _ ih => exact Reachable.head (mem_successors.mpr hedge) ih

theorem isPath_snoc_cases {g : DiGraph} {a b : Nat} {p : List Nat}
    (h : IsPath g a b p) :
    (p = [a] ∧ b = a) ∨
    ∃ p' u, p = p' ++ [b] ∧ IsPath g a u p' ∧
      ({ source := u, target := b } : Edge) ∈ g.edges := by
  induction h with
  | single a => exact Or.inl ⟨rfl, rfl⟩
  | @cons a' b' c' p' hedge htail ih =>
    rcases ih with ⟨hp, hb⟩ | ⟨q, u, hq, hpath, he⟩
    · refine Or.inr ⟨[a'], a', ?_, IsPath.single a', ?_⟩
      · rw [hp, hb]
        rfl
      · rw [hb]
        exact hedge
    · refine Or.inr ⟨a' :: q, u, ?_, IsPath.cons hedge hpath, he⟩
      rw [hq]
      rfl

theorem isPath_drop_aux {g : DiGraph} {x b : Nat} {p : List Nat}
    (h : IsPath g x b p) :
    ∀ (l₁ : List Nat) (y : Nat) (l₂ : List Nat),
      p = l₁ ++ y :: l₂ → IsPath g y b (y :: l₂) := by
  induction h with
  | single a =>
    intro l₁ y l₂ heq
    cases l₁ with
    | nil =>
      rw [List.nil_append] at heq
      injection heq with h1 h2
      rw [← h1, ← h2]
      exact IsPath.single _
    | cons z l₁ =>
      rw [List.cons_append] at heq
      injection heq with h1 h2
      exact absurd h2.symm (by simp)
  | @cons a' b' c' p' hedge htail ih =>
    intro l₁ y l₂ heq
    cases l₁ with
    | nil =>
      rw [List.nil_append] at heq
      injection heq with h1 h2
      rw [← h1, ← h2]
      exact IsPath.cons hedge htail
    | cons z l₁ =>
      rw [List.cons_append] at heq
      injection heq with h1 h2
      exact ih l₁ y l₂ h2

theorem isPath_drop {g : DiGraph} {b : Nat} :
    ∀ (l₁ : List Nat) (x y : Nat) (l₂ : List Nat),
      IsPath g x b (l₁ ++ y :: l₂) → IsPath g y b (y :: l₂) :=
  fun l₁ _ y l₂ h => isPath_drop_aux h l₁ y l₂ rfl

theorem isPath_to_nodup {g : DiGraph} {a b : Nat} {p : List Nat}
    (h : IsPath g a b p) : ∃ q, IsPath g a b q ∧ q.Nodup := by
  induction h with
  | single a => exact ⟨[a], IsPath.single a, by simp⟩
  | @cons a' b' c' p' hedge htail ih =>
    obtain ⟨q, hq, hnd⟩ := ih
    by_cases ha : a' ∈ q
    · obtain ⟨l₁, l₂, rfl⟩ := List.append_of_mem ha
      refine ⟨a' :: l₂, isPath_drop l₁ b' a' l₂ hq, ?_⟩
      have hsub : (a' :: l₂).Sublist (l₁ ++ a' :: l₂) := by
        exact (List.suffix_append l₁ (a' :: l₂)).sublist
      exact hnd.sublist hsub
    · exact ⟨a' :: q, IsPath.cons hedge hq, List.nodup_cons.mpr ⟨ha, hnd⟩⟩

theorem isPath_tail_targets {g : DiGraph} {a b : Nat} {p : List Nat}
    (h : IsPath g a b p) : ∀ x ∈ p.tail, ∃ e ∈ g.edges, e.target = x := by
  induction h with
  | single a => simp
  | @cons a' b' c' p' hedge htail ih =>
    intro x hx
    rw [List.tail_cons] at hx
    obtain ⟨q, hq⟩ := isPath_start htail
    subst hq
    rcases List.mem_cons.mp hx with hx | hx
    · subst hx
      exact ⟨_, hedge, rfl⟩
    · exact ih x (by simpa using hx)

theorem isPath_nodup_length {g : DiGraph} {a b : Nat} {p : List Nat}
    (h : IsPath g a b p) (hnd : p.Nodup) : p.length ≤ g.edges.length + 1 := by
  obtain ⟨q, hq⟩ := isPath_start h
  subst hq
  have htl : ∀ x ∈ q, x ∈ g.edges.map Edge.target := by
    intro x hx
    obtain ⟨e, he, het⟩ := isPath_tail_targets h x (by simpa using hx)
    exact List.mem_map.mpr ⟨e, he, het⟩
  have hqnd : q.Nodup := (List.nodup_cons.mp hnd).2
  have hsub : List.Subperm q (g.edges.map Edge.target) := List.subperm_of_subset hqnd htl
  have := hsub.length_le
  rw [List.length_map] at this
  simp only [List.length_cons]
  omega

/-! ### Layered reachability and the shortest-path model -/

theorem self_mem_reachIn (g : DiGraph) (s : Nat) : ∀ n, s ∈ g.reachIn s n
  | 0 => List.mem_singleton.mpr rfl
  | n + 1 => List.mem_append.mpr (Or.inl (self_mem_reachIn g s n))

theorem contains_iff_mem {l : List Nat} {x : Nat} : l.contains x = true ↔ x ∈ l := by
  simp [List.contains]

theorem mem_reachIn {g : DiGraph} {s : Nat} :
    ∀ (n x : Nat), x ∈ g.reachIn s n ↔ ∃ p, IsPath g s x p ∧ p.length ≤ n + 1 := by
  intro n
  induction n with
  | zero =>
    intro x
    constructor
    · intro h
      have hx : x = s := by simpa [DiGraph.reachIn] using h
      subst hx
      exact ⟨[x], IsPath.single x, by simp⟩
    · rintro ⟨p, hp, hlen⟩
      obtain ⟨q, hq⟩ := isPath_start hp
      subst hq
      have hq0 : q = [] := by
        simp only [List.length_cons] at hlen
        exact List.eq_nil_of_length_eq_zero (by omega)
      subst hq0
      have := (isPath_singleton hp).1
      simp [DiGraph.reachIn, this]
  | succ n ih =>
    intro x
    constructor
    · intro h
      rcases List.mem_append.mp h with h | h
      · obtain ⟨p, hp, hlen⟩ := (ih x).mp h
        exact ⟨p, hp, by omega⟩
      · obtain ⟨u, hu, hxu⟩ := List.mem_flatMap.mp h
        obtain ⟨p, hp, hlen⟩ := (ih u).mp hu
        refine ⟨p ++ [x], isPath_append_edge hp (mem_successors.mp hxu), ?_⟩
        rw [List.length_append]
        simp only [List.length_singleton]
        omega
    · rintro ⟨p, hp, hlen⟩
      rcases isPath_snoc_cases hp with ⟨hp1, hb⟩ | ⟨p', u, hpq, hp', hue⟩
      · subst hb
        exact List.mem_append.mpr (Or.inl (self_mem_reachIn g x n))
      · have hlen' : p'.length ≤ n + 1 := by
          rw [hpq, List.length_append] at hlen
          simp only [List.length_singleton] at hlen
          omega
        have hu : u ∈ g.reachIn s n := (ih u).mpr ⟨p', hp', hlen'⟩
        refine List.mem_append.mpr (Or.inr ?_)
        exact List.mem_flatMap.mpr ⟨u, hu, mem_successors.mpr hue⟩

theorem reachIn_sound {g : DiGraph} {s x n : Nat} (h : x ∈ g.reachIn s n) :
    Reachable g s x := by
  obtain ⟨p, hp, _⟩ := (mem_reachIn n x).mp h
  exact reachable_iff_isPath.mpr ⟨p, hp⟩

theorem reachIn_complete {g : DiGraph} {s x : Nat} (h : Reachable g s x) :
    x ∈ g.reachIn s g.edges.length := by
  obtain ⟨p, hp⟩ := reachable_iff_isPath.mp h
  obtain ⟨q, hq, hnd⟩ := isPath_to_nodup hp
  exact (mem_reachIn _ x).mpr ⟨q, hq, isPath_nodup_length hq hnd⟩

theorem find?_range'_spec (p : Nat → Bool) :
    ∀ (k a n : Nat), (List.range' a k).find? p = some n →
      p n = true ∧ ∀ m, a ≤ m → m < n → p m = false := by
  intro k
  induction k with
  | zero =>
    intro a n h
    simp [List.range'] at h
  | succ k ih =>
    intro a n h
    rw [List.range'_succ, List.find?_cons] at h
    cases hpa : p a with
    | true =>
      rw [hpa] at h
      injection h with h
      subst h
      exact ⟨hpa, fun m h1 h2 => by omega⟩
    | false =>
      rw [hpa] at h
      obtain ⟨h1, h2⟩ := ih (a + 1) n h
      refine ⟨h1, fun m hm1 hm2 => ?_⟩
      rcases Nat.eq_or_lt_of_le hm1 with heq | hm
      · rw [← heq]
        exact hpa
      · exact h2 m (by omega) hm2

theorem find?_range_spec (p : Nat → Bool) (k n : Nat)
    (h : (List.range k).find? p = some n) :
    p n = true ∧ ∀ m, m < n → p m = false := by
  rw [List.range_eq_range'] at h
  obtain ⟨h1, h2⟩ := find?_range'_spec p k 0 n h
  exact ⟨h1, fun m hm => h2 m (by omega) hm⟩

theorem buildPath_spec (g : DiGraph) (s : Nat) :
    ∀ (n t : Nat), t ∈ g.reachIn s n → (∀ m, m < n → t ∉ g.reachIn s m) →
      IsPath g s t (g.buildPath s n t) ∧ (g.buildPath s n t).length = n + 1 := by
  intro n
  induction n with
  | zero =>
    intro t ht _
    have hts : t = s := by simpa [DiGraph.reachIn] using ht
    subst hts
    exact ⟨IsPath.single t, rfl⟩
  | succ n ih =>
    intro t ht hmin
    have htn : t ∉ g.reachIn s n := hmin n (by omega)
    have hstep : ∃ u ∈ g.reachIn s n, t ∈ g.successors u := by
      rcases List.mem_append.mp ht with h | h
      · exact absurd h htn
      · exact List.mem_flatMap.mp h
    have hex : ∃ e ∈ g.edges,
        (e.target == t && (g.reachIn s n).contains e.source) = true := by
      obtain ⟨u, hu, hsucc⟩ := hstep
      refine ⟨{ source := u, target := t }, mem_successors.mp hsucc, ?_⟩
      simp only [Bool.and_eq_true, beq_iff_eq]
      exact ⟨by simp, contains_iff_mem.mpr hu⟩
    cases hfind : g.edges.find?
        (fun e => e.target == t && (g.reachIn s n).contains e.source) with
    | none =>
      exfalso
      obtain ⟨e, he, hpe⟩ := hex
      have hnone := List.find?_eq_none.mp hfind e he
      rw [hpe] at hnone
      exact hnone rfl
    | some e =>
      have hpe := List.find?_some hfind
      simp only [Bool.and_eq_true, beq_iff_eq] at hpe
      obtain ⟨het, hes⟩ := hpe
      have hesrc : e.source ∈ g.reachIn s n := contains_iff_mem.mp hes
      have hedge : ({ source := e.source, target := t } : Edge) ∈ g.edges := by
        have hme := List.mem_of_find?_eq_some hfind
        obtain ⟨s1, t1⟩ := e
        simp only at het
        rw [← het]
        exact hme
      have hsmin : ∀ m, m < n → e.source ∉ g.reachIn s m := by
        intro m hm hmem
        have htm : t ∈ g.reachIn s (m + 1) := by
          refine List.mem_append.mpr (Or.inr ?_)
          refine List.mem_flatMap.mpr ⟨e.source, hmem, ?_⟩
          exact mem_successors.mpr hedge
        exact hmin (m + 1) (by omega) htm
      obtain ⟨hp1, hp2⟩ := ih e.source hesrc hsmin
      have hbp : g.buildPath s (n + 1) t = g.buildPath s n e.source ++ [t] := by
        simp only [DiGraph.buildPath, hfind]
      rw [hbp]
      refine ⟨isPath_append_edge hp1 hedge, ?_⟩
      rw [List.length_append, hp2]
      rfl

/-- The two structural facts making a graph "tree-shaped": every edge goes
from a lower (earlier-created) index to a higher one, and no two edges
share a target (each vertex has at most one incoming edge).  Both hold for
every graph `build_from_tree` produces. -/
def TreeShaped (g : DiGraph) : Prop :=
  (∀ e ∈ g.edges, e.source < e.target) ∧
  g.edges.Pairwise (fun e f => e.target ≠ f.target)

instance (g : DiGraph) : Decidable (TreeShaped g) := by
  unfold TreeShaped
  infer_instance

theorem pairwise_target_inj {l : List Edge}
    (h : l.Pairwise (fun e f => e.target ≠ f.target)) :
    ∀ e₁ ∈ l, ∀ e₂ ∈ l, e₁.target = e₂.target → e₁ = e₂ := by
  induction l with
  | nil => simp
  | cons e l ih =>
    obtain ⟨hhead, htail⟩ := List.pairwise_cons.mp h
    intro e₁ he₁ e₂ he₂ heq
    rcases List.mem_cons.mp he₁ with h1 | h1 <;> rcases List.mem_cons.mp he₂ with h2 | h2
    · rw [h1, h2]
    · exact absurd (h1 ▸ heq) (hhead e₂ h2)
    · exact absurd (h2 ▸ heq.symm) (hhead e₁ h1)
    · exact ih htail e₁ h1 e₂ h2 heq

theorem isPath_le {g : DiGraph} (hlt : ∀ e ∈ g.edges, e.source < e.target)
    {a b : Nat} {p : List Nat} (h : IsPath g a b p) : a ≤ b := by
  induction h with
  | single a => exact Nat.le_refl a
  | @cons a' b' c' p' hedge htail ih =>
    have := hlt _ hedge
    simp only at this
    omega

theorem isPath_unique {g : DiGraph} (hts : TreeShaped g) :
    ∀ (k : Nat) (p q : List Nat) (a b : Nat), p.length ≤ k →
      IsPath g a b p → IsPath g a b q → p = q := by
  intro k
  induction k with
  | zero =>
    intro p q a b hlen hp _
    obtain ⟨r, hr⟩ := isPath_start hp
    rw [hr] at hlen
    simp at hlen
  | succ k ih =>
    intro p q a b hlen hp hq
    rcases isPath_snoc_cases hp with ⟨hp1, hb⟩ | ⟨p', u, hpq, hp', hue⟩
    · rcases isPath_snoc_cases hq with ⟨hq1, _⟩ | ⟨q', v, hqq, hq', hve⟩
      · rw [hp1, hq1]
      · exfalso
        have h1 : a ≤ v := isPath_le hts.1 hq'
        have h2 : v < b := by
          have := hts.1 _ hve
          simpa using this
        omega
    · rcases isPath_snoc_cases hq with ⟨hq1, hb⟩ | ⟨q', v, hqq, hq', hve⟩
      · exfalso
        have h1 : a ≤ u := isPath_le hts.1 hp'
        have h2 : u < b := by
          have := hts.1 _ hue
          simpa using this
        omega
      · have huv : ({ source := u, target := b } : Edge)
            = ({ source := v, target := b } : Edge) :=
          pairwise_target_inj hts.2 _ hue _ hve rfl
        have huv' : u = v := by injection huv
        subst huv'
        have hlen' : p'.length ≤ k := by
          rw [hpq, List.length_append] at hlen
          simp only [List.length_singleton] at hlen
          omega
        rw [hpq, hqq, ih p' q' a u hlen' hp' hq']

/-- C6: on a tree-shaped graph (each vertex has at most one incoming edge
and edges point from earlier to later indices — true of every graph built
from a tree), `path_from_to a b` returns `none` exactly when `b` is
unreachable from `a` along outgoing edges, and otherwise returns a path
from `a` to `b` whose edge count equals that of the unique tree path from
`a` to `b` (every path from `a` to `b` has the returned length, which is
also the minimum). -/
theorem claim_C6_shortest_path (g : ASTGraph) (a b : Nat) (hts : TreeShaped g.graph) :
    (g.path_from_to a b = none ↔ ¬ Reachable g.graph a b) ∧
    (∀ p, g.path_from_to a b = some p →
      IsPath g.graph a b p ∧ ∀ q, IsPath g.graph a b q → q.length = p.length) := by
  unfold ASTGraph.path_from_to
  cases hfind : (List.range (g.graph.edges.length + 2)).find?
      (fun n => (g.graph.reachIn a n).contains b) with
  | none =>
    refine ⟨⟨fun _ => ?_, fun _ => rfl⟩, fun p hp => ?_⟩
    · intro hreach
      have hmem := reachIn_complete hreach
      have hE : g.graph.edges.length ∈ List.range (g.graph.edges.length + 2) :=
        List.mem_range.mpr (by omega)
      have hnone : ((g.graph.reachIn a g.graph.edges.length).contains b) ≠ true :=
        List.find?_eq_none.mp hfind _ hE
      exact hnone (contains_iff_mem.mpr hmem)
    · exact absurd hp (by simp)
  | some n =>
    obtain ⟨hPn, hPmin⟩ := find?_range_spec _ _ _ hfind
    have hPn' : (g.graph.reachIn a n).contains b = true := hPn
    have hbn : b ∈ g.graph.reachIn a n := contains_iff_mem.mp hPn'
    have hmin : ∀ m, m < n → b ∉ g.graph.reachIn a m := by
      intro m hm hmem
      have hc : (g.graph.reachIn a m).contains b = false := hPmin m hm
      rw [contains_iff_mem.mpr hmem] at hc
      exact absurd hc (by simp)
    obtain ⟨hpath, hplen⟩ := buildPath_spec g.graph a n b hbn hmin
    refine ⟨⟨fun h => ?_, fun hreach => ?_⟩, fun p hp => ?_⟩
    · exact absurd h (by simp)
    · exact absurd (reachIn_sound hbn) hreach
    · have hp' : g.graph.buildPath a n b = p := by
        injection hp
      subst hp'
      refine ⟨hpath, fun q hq => ?_⟩
      rw [isPath_unique hts q.length q (g.graph.buildPath a n b) a b (Nat.le_refl _) hq hpath]

theorem claim_C6_shortest_path_witness :
    TreeShaped exGraph.graph ∧
    ((exGraph.path_from_to 0 1 = none ↔ ¬ Reachable exGraph.graph 0 1) ∧
     (∀ p, exGraph.path_from_to 0 1 = some p →
       IsPath exGraph.graph 0 1 p ∧
       ∀ q, IsPath exGraph.graph 0 1 q → q.length = p.length)) :=
  ⟨by decide, claim_C6_shortest_path exGraph 0 1 (by decide)⟩

/-! ### Correctness of the breadth-first iterator -/

theorem successors_target {g : DiGraph} {u x : Nat} (h : x ∈ g.successors u) :
    ∃ e ∈ g.edges, x = e.target :=
  ⟨{ source := u, target := x }, mem_successors.mp h, rfl⟩

theorem successors_length_le (g : DiGraph) (u : Nat) :
    (g.successors u).length ≤ g.edges.length := by
  unfold DiGraph.successors
  rw [List.length_reverse, List.length_map]
  exact List.length_filter_le _ _

theorem reachable_mem_closed {g : DiGraph} {src : Nat} {disc : List Nat}
    (hsrc : src ∈ disc) (hclosed : ∀ u ∈ disc, ∀ v ∈ g.successors u, v ∈ disc) :
    ∀ x, Reachable g src x → x ∈ disc := by
  intro x h
  induction h with
  | refl => exact hsrc
  | tail _ hstep ih => exact hclosed _ ih _ hstep

theorem disc_length_le {g : DiGraph} {src : Nat} {disc : List Nat}
    (hnd : disc.Nodup)
    (huni : ∀ x ∈ disc, x = src ∨ ∃ e ∈ g.edges, x = e.target) :
    disc.length ≤ 1 + g.edges.length := by
  have hsub : ∀ x ∈ disc, x ∈ src :: g.edges.map Edge.target := by
    intro x hx
    rcases huni x hx with h | ⟨e, he, rfl⟩
    · exact h ▸ List.mem_cons_self _ _
    · exact List.mem_cons_of_mem _ (List.mem_map.mpr ⟨e, he, rfl⟩)
  have hlen := (List.subperm_of_subset hnd hsub).length_le
  simp only [List.length_cons, List.length_map] at hlen
  omega

theorem bfsStep_spec (g : DiGraph) :
    ∀ (ss disc queue : List Nat),
      ∃ d, ss.foldl
          (fun acc s => if acc.1.contains s then acc else (acc.1 ++ [s], acc.2 ++ [s]))
          (disc, queue) = (disc ++ d, queue ++ d) ∧
        (∀ x ∈ d, x ∈ ss) ∧
        (∀ x ∈ ss, x ∈ disc ++ d) ∧
        (disc.Nodup → (disc ++ d).Nodup) := by
  intro ss
  induction ss with
  | nil =>
    intro disc queue
    exact ⟨[], by simp, by simp, by simp, fun h => by simpa⟩
  | cons s ss ih =>
    intro disc queue
    simp only [List.foldl_cons]
    cases hc : disc.contains s with
    | true =>
      have hmem : s ∈ disc := contains_iff_mem.mp hc
      obtain ⟨d, h1, h2, h3, h4⟩ := ih disc queue
      refine ⟨d, ?_, fun x hx => List.mem_cons_of_mem _ (h2 x hx), ?_, h4⟩
      · rw [if_pos rfl]
        exact h1
      · intro x hx
        rcases List.mem_cons.mp hx with hx | hx
        · exact List.mem_append.mpr (Or.inl (hx ▸ hmem))
        · exact h3 x hx
    | false =>
      have hmem : s ∉ disc := fun hs => by
        rw [contains_iff_mem.mpr hs] at hc
        exact absurd hc (by simp)
      obtain ⟨d, h1, h2, h3, h4⟩ := ih (disc ++ [s]) (queue ++ [s])
      rw [if_neg (by simp)]
      refine ⟨s :: d, ?_, ?_, ?_, ?_⟩
      · rw [h1]
        simp
      · intro x hx
        rcases List.mem_cons.mp hx with hx | hx
        · exact hx ▸ List.mem_cons_self _ _
        · exact List.mem_cons_of_mem _ (h2 x hx)
      · intro x hx
        rcases List.mem_cons.mp hx with hx | hx
        · subst hx
          simp
        · have := h3 x hx
          simp only [List.mem_append, List.mem_singleton, List.mem_cons] at this ⊢
          tauto
      · intro hnd
        have : (disc ++ [s]).Nodup := by
          rw [List.nodup_append]
          refine ⟨hnd, by simp, ?_⟩
          intro a ha hs
          rw [List.mem_singleton] at hs
          exact hmem (hs ▸ ha)
        have := h4 this
        simp only [List.append_assoc, List.singleton_append] at this
        simpa using this

theorem bfsAux_spec (g : DiGraph) (src : Nat) :
    ∀ (fuel : Nat) (queue disc processed : List Nat),
      disc = processed ++ queue →
      disc.Nodup →
      src ∈ disc →
      (∀ x ∈ disc, Reachable g src x) →
      (∀ x ∈ disc, x = src ∨ ∃ e ∈ g.edges, x = e.target) →
      (∀ u ∈ processed, ∀ v ∈ g.successors u, v ∈ disc) →
      2 * (1 + g.edges.length) + queue.length ≤ fuel + 2 * disc.length →
      (bfsAux g fuel queue disc).Nodup ∧
      ∀ x, x ∈ bfsAux g fuel queue disc ↔ (Reachable g src x ∧ x ∉ processed) := by
  intro fuel
  induction fuel with
  | zero =>
    intro queue disc processed hsplit hnd hsrc hreach huni hclosed hfuel
    have hdlen : disc.length ≤ 1 + g.edges.length := disc_length_le hnd huni
    have hq0 : queue = [] := by
      have hq : queue.length = 0 := by omega
      exact List.length_eq_zero.mp hq
    subst hq0
    rw [List.append_nil] at hsplit
    refine ⟨by simp [bfsAux], ?_⟩
    intro x
    simp only [bfsAux, List.not_mem_nil, false_iff]
    rintro ⟨hr, hnp⟩
    have hmem := reachable_mem_closed hsrc (by rw [hsplit]; exact hsplit ▸ hclosed) x hr
    exact hnp (hsplit ▸ hmem)
  | succ fuel ih =>
    intro queue disc processed hsplit hnd hsrc hreach huni hclosed hfuel
    cases queue with
    | nil =>
      rw [List.append_nil] at hsplit
      refine ⟨by simp [bfsAux], ?_⟩
      intro x
      simp only [bfsAux, List.not_mem_nil, false_iff]
      rintro ⟨hr, hnp⟩
      have hmem := reachable_mem_closed hsrc (by rw [hsplit]; exact hsplit ▸ hclosed) x hr
      exact hnp (hsplit ▸ hmem)
    | cons node queue2 =>
      obtain ⟨d, hstep, hdss, hcov, hnodup⟩ := bfsStep_spec g (g.successors node) disc queue2
      have hnode_disc : node ∈ disc := by
        rw [hsplit]
        simp
      have hnode_np : node ∉ processed := by
        rw [hsplit, List.nodup_append] at hnd
        exact fun hp => hnd.2.2 hp (List.mem_cons_self _ _)
      have hunfold : bfsAux g (fuel + 1) (node :: queue2) disc
          = node :: bfsAux g fuel (queue2 ++ d) (disc ++ d) := by
        show (fun p => node :: bfsAux g fuel p.2 p.1) (bfsStep g node disc queue2) = _
        rw [show bfsStep g node disc queue2 = (disc ++ d, queue2 ++ d) from hstep]
      have hih := ih (queue2 ++ d) (disc ++ d) (processed ++ [node]) ?_ ?_ ?_ ?_ ?_ ?_ ?_
      · obtain ⟨hnd2, hiff⟩ := hih
        rw [hunfold]
        have hnode_rest : node ∉ bfsAux g fuel (queue2 ++ d) (disc ++ d) := by
          intro hmem
          have := (hiff node).mp hmem
          exact this.2 (by simp)
        refine ⟨List.nodup_cons.mpr ⟨hnode_rest, hnd2⟩, ?_⟩
        intro x
        constructor
        · intro hx
          rcases List.mem_cons.mp hx with hx | hx
          · exact hx ▸ ⟨hreach node hnode_disc, hnode_np⟩
          · obtain ⟨hr, hnp⟩ := (hiff x).mp hx
            exact ⟨hr, fun hp => hnp (List.mem_append.mpr (Or.inl hp))⟩
        · rintro ⟨hr, hnp⟩
          by_cases hxn : x = node
          · exact hxn ▸ List.mem_cons_self _ _
          · refine List.mem_cons_of_mem _ ((hiff x).mpr ⟨hr, ?_⟩)
            intro hp
            rcases List.mem_append.mp hp with hp | hp
            · exact hnp hp
            · exact hxn (by simpa using hp)
      · rw [hsplit]
        simp
      · exact hnodup hnd
      · exact List.mem_append.mpr (Or.inl hsrc)
      · intro x hx
        rcases List.mem_append.mp hx with hx | hx
        · exact hreach x hx
        · exact Reachable.tail (hreach node hnode_disc) (hdss x hx)
      · intro x hx
        rcases List.mem_append.mp hx with hx | hx
        · exact huni x hx
        · exact Or.inr (successors_target (hdss x hx))
      · intro u hu v hv
        rcases List.mem_append.mp hu with hu | hu
        · exact List.mem_append.mpr (Or.inl (hclosed u hu v hv))
        · have : u = node := by simpa using hu
          exact hcov v (this ▸ hv)
      · rw [List.length_append, List.length_append]
        simp only [List.length_cons] at hfuel
        omega
    
theorem bfsList_spec (g : DiGraph) (s : Nat) :
    (g.bfsList s).Nodup ∧ ∀ x, x ∈ g.bfsList s ↔ Reachable g s x := by
  have h := bfsAux_spec g s (2 * g.edges.length + 2) [s] [s] []
    (by simp) (by simp) (by simp)
    (by intro x hx; rw [List.mem_singleton.mp hx]; exact Reachable.refl)
    (by intro x hx; exact Or.inl (List.mem_singleton.mp hx))
    (by simp)
    (by simp; omega)
  obtain ⟨hnd, hiff⟩ := h
  refine ⟨hnd, fun x => ?_⟩
  rw [DiGraph.bfsList]
  rw [hiff x]
  simp

/-! ### Correctness of the depth-first iterator -/

theorem dfsPush_spec (disc2 : List Nat) :
    ∀ (ss stack : List Nat),
      ∃ d, ss.foldl (fun st s => if disc2.contains s then st else s :: st) stack
            = d ++ stack ∧
        (∀ x ∈ d, x ∈ ss) ∧
        (∀ x ∈ ss, x ∈ disc2 ∨ x ∈ d) ∧
        d.length ≤ ss.length := by
  intro ss
  induction ss with
  | nil =>
    intro stack
    exact ⟨[], by simp, by simp, by simp, by simp⟩
  | cons s ss ih =>
    intro stack
    simp only [List.foldl_cons]
    cases hc : disc2.contains s with
    | true =>
      have hmem : s ∈ disc2 := contains_iff_mem.mp hc
      obtain ⟨d, h1, h2, h3, h4⟩ := ih stack
      refine ⟨d, ?_, fun x hx => List.mem_cons_of_mem _ (h2 x hx), ?_,
        by simp only [List.length_cons]; omega⟩
      · rw [if_pos rfl]
        exact h1
      · intro x hx
        rcases List.mem_cons.mp hx with hx | hx
        · exact Or.inl (hx ▸ hmem)
        · exact h3 x hx
    | false =>
      obtain ⟨d, h1, h2, h3, h4⟩ := ih (s :: stack)
      rw [if_neg (by simp)]
      refine ⟨d ++ [s], ?_, ?_, ?_, ?_⟩
      · rw [h1]
        simp
      · intro x hx
        rcases List.mem_append.mp hx with hx | hx
        · exact List.mem_cons_of_mem _ (h2 x hx)
        · rw [List.mem_singleton] at hx
          exact hx ▸ List.mem_cons_self _ _
      · intro x hx
        rcases List.mem_cons.mp hx with hx | hx
        · exact Or.inr (List.mem_append.mpr (Or.inr (by simp [hx])))
        · rcases h3 x hx with h | h
          · exact Or.inl h
          · exact Or.inr (List.mem_append.mpr (Or.inl h))
      · rw [List.length_append]
        simp only [List.length_singleton, List.length_cons, List.length_nil]
        omega

theorem dfsAux_spec (g : DiGraph) (src : Nat) :
    ∀ (fuel : Nat) (stack disc : List Nat),
      (∀ x ∈ stack, Reachable g src x) →
      (∀ x ∈ disc, Reachable g src x) →
      (src ∈ disc ∨ src ∈ stack) →
      disc.Nodup →
      (∀ x ∈ disc, x = src ∨ ∃ e ∈ g.edges, x = e.target) →
      (∀ x ∈ stack, x = src ∨ ∃ e ∈ g.edges, x = e.target) →
      (∀ u ∈ disc, ∀ v ∈ g.successors u, v ∈ disc ∨ v ∈ stack) →
      (1 + g.edges.length) * (1 + g.edges.length) + stack.length
          ≤ fuel + (1 + g.edges.length) * disc.length →
      (dfsAux g fuel stack disc).Nodup ∧
      ∀ x, x ∈ dfsAux g fuel stack disc ↔ (Reachable g src x ∧ x ∉ disc) := by
  intro fuel
  induction fuel with
  | zero =>
    intro stack disc hstackr hdiscr hsrc hnd huni hstku hclosed hfuel
    have hdlen : disc.length ≤ 1 + g.edges.length := disc_length_le hnd huni
    have hs0 : stack = [] := by
      have hq : stack.length = 0 := by
        have h1 : (1 + g.edges.length) * disc.length
            ≤ (1 + g.edges.length) * (1 + g.edges.length) :=
          Nat.mul_le_mul_left _ hdlen
        omega
      exact List.length_eq_zero.mp hq
    subst hs0
    have hsrc' : src ∈ disc := by
      rcases hsrc with h | h
      · exact h
      · simp at h
    refine ⟨by simp [dfsAux], ?_⟩
    intro x
    simp only [dfsAux, List.not_mem_nil, false_iff]
    rintro ⟨hr, hnp⟩
    have hclosed' : ∀ u ∈ disc, ∀ v ∈ g.successors u, v ∈ disc := by
      intro u hu v hv
      rcases hclosed u hu v hv with h | h
      · exact h
      · simp at h
    exact hnp (reachable_mem_closed hsrc' hclosed' x hr)
  | succ fuel ih =>
    intro stack disc hstackr hdiscr hsrc hnd huni hstku hclosed hfuel
    cases stack with
    | nil =>
      have hsrc' : src ∈ disc := by
        rcases hsrc with h | h
        · exact h
        · simp at h
      refine ⟨by simp [dfsAux], ?_⟩
      intro x
      simp only [dfsAux, List.not_mem_nil, false_iff]
      rintro ⟨hr, hnp⟩
      have hclosed' : ∀ u ∈ disc, ∀ v ∈ g.successors u, v ∈ disc := by
        intro u hu v hv
        rcases hclosed u hu v hv with h | h
        · exact h
        · simp at h
      exact hnp (reachable_mem_closed hsrc' hclosed' x hr)
    | cons node stack2 =>
      cases hc : disc.contains node with
      | true =>
        have hmem : node ∈ disc := contains_iff_mem.mp hc
        have hunfold : dfsAux g (fuel + 1) (node :: stack2) disc
            = dfsAux g fuel stack2 disc := by
          show (if disc.contains node then dfsAux g fuel stack2 disc else _) = _
          rw [hc, if_pos rfl]
        rw [hunfold]
        apply ih stack2 disc
          (fun x hx => hstackr x (List.mem_cons_of_mem _ hx)) hdiscr ?_ hnd huni
          (fun x hx => hstku x (List.mem_cons_of_mem _ hx)) ?_ ?_
        · rcases hsrc with h | h
          · exact Or.inl h
          · rcases List.mem_cons.mp h with h | h
            · exact Or.inl (h ▸ hmem)
            · exact Or.inr h
        · intro u hu v hv
          rcases hclosed u hu v hv with h | h
          · exact Or.inl h
          · rcases List.mem_cons.mp h with h | h
            · exact Or.inl (h ▸ hmem)
            · exact Or.inr h
        · simp only [List.length_cons] at hfuel
          omega
      | false =>
        have hmem : node ∉ disc := fun hs => by
          rw [contains_iff_mem.mpr hs] at hc
          exact absurd hc (by simp)
        obtain ⟨d, hstep, hdss, hcov, hdlen⟩ :=
          dfsPush_spec (disc ++ [node]) (g.successors node) stack2
        have hnodup2 : (disc ++ [node]).Nodup := by
          rw [List.nodup_append]
          refine ⟨hnd, by simp, ?_⟩
          intro a ha hs
          rw [List.mem_singleton] at hs
          exact hmem (hs ▸ ha)
        have hunfold : dfsAux g (fuel + 1) (node :: stack2) disc
            = node :: dfsAux g fuel (d ++ stack2) (disc ++ [node]) := by
          show (if disc.contains node then _
              else node :: dfsAux g fuel
                ((g.successors node).foldl
                  (fun st s => if (disc ++ [node]).contains s then st else s :: st) stack2)
                (disc ++ [node])) = _
          rw [hc, if_neg (by simp), hstep]
        have hnoder : Reachable g src node := hstackr node (List.mem_cons_self _ _)
        have hih := ih (d ++ stack2) (disc ++ [node]) ?_ ?_ ?_ hnodup2 ?_ ?_ ?_ ?_
        · obtain ⟨hnd2, hiff⟩ := hih
          rw [hunfold]
          have hnode_rest : node ∉ dfsAux g fuel (d ++ stack2) (disc ++ [node]) := by
            intro hmem2
            have := (hiff node).mp hmem2
            exact this.2 (by simp)
          refine ⟨List.nodup_cons.mpr ⟨hnode_rest, hnd2⟩, ?_⟩
          intro x
          constructor
          · intro hx
            rcases List.mem_cons.mp hx with hx | hx
            · exact hx ▸ ⟨hnoder, hmem⟩
            · obtain ⟨hr, hnp⟩ := (hiff x).mp hx
              exact ⟨hr, fun hp => hnp (List.mem_append.mpr (Or.inl hp))⟩
          · rintro ⟨hr, hnp⟩
            by_cases hxn : x = node
            · exact hxn ▸ List.mem_cons_self _ _
            · refine List.mem_cons_of_mem _ ((hiff x).mpr ⟨hr, ?_⟩)
              intro hp
              rcases List.mem_append.mp hp with hp | hp
              · exact hnp hp
              · exact hxn (by simpa using hp)
          
        · intro x hx
          rcases List.mem_append.mp hx with hx | hx
          · exact Reachable.tail hnoder (hdss x hx)
          · exact hstackr x (List.mem_cons_of_mem _ hx)
        · intro x hx
          rcases List.mem_append.mp hx with hx | hx
          · exact hdiscr x hx
          · rw [List.mem_singleton] at hx
            exact hx ▸ hnoder
        · rcases hsrc with h | h
          · exact Or.inl (List.mem_append.mpr (Or.inl h))
          · rcases List.mem_cons.mp h with h | h
            · exact Or.inl (List.mem_append.mpr (Or.inr (by simp [h])))
            · exact Or.inr (List.mem_append.mpr (Or.inr h))
        · intro x hx
          rcases List.mem_append.mp hx with hx | hx
          · exact huni x hx
          · rw [List.mem_singleton] at hx
            exact hx ▸ hstku node (List.mem_cons_self _ _)
        · intro x hx
          rcases List.mem_append.mp hx with hx | hx
          · exact Or.inr (successors_target (hdss x hx))
          · exact hstku x (List.mem_cons_of_mem _ hx)
        · intro u hu v hv
          rcases List.mem_append.mp hu with hu | hu
          · rcases hclosed u hu v hv with h | h
            · exact Or.inl (List.mem_append.mpr (Or.inl h))
            · rcases List.mem_cons.mp h with h | h
              · exact Or.inl (List.mem_append.mpr (Or.inr (by simp [h])))
              · exact Or.inr (List.mem_append.mpr (Or.inr h))
          · rw [List.mem_singleton] at hu
            subst hu
            rcases hcov v hv with h | h
            · exact Or.inl h
            · exact Or.inr (List.mem_append.mpr (Or.inl h))
        · have hsl : (g.successors node).length ≤ g.edges.length :=
            successors_length_le g node
          rw [List.length_append, List.length_append]
          simp only [List.length_cons, List.length_singleton, List.length_nil,
            Nat.add_zero, Nat.zero_add] at hfuel ⊢
          have hd : d.length ≤ g.edges.length := le_trans hdlen hsl
          have hmul : (1 + g.edges.length) * (disc.length + 1)
              = (1 + g.edges.length) * disc.length + (1 + g.edges.length) := by ring
          omega

theorem dfsList_spec (g : DiGraph) (s : Nat) :
    (g.dfsList s).Nodup ∧ ∀ x, x ∈ g.dfsList s ↔ Reachable g s x := by
  have h := dfsAux_spec g s ((g.edges.length + 1) * (g.edges.length + 1) + 1) [s] []
    (by intro x hx; rw [List.mem_singleton.mp hx]; exact Reachable.refl)
    (by simp)
    (Or.inr (by simp))
    (by simp)
    (by simp)
    (by intro x hx; exact Or.inl (List.mem_singleton.mp hx))
    (by simp)
    (by simp only [List.length_singleton, List.length_nil]; ring_nf; omega)
  obtain ⟨hnd, hiff⟩ := h
  refine ⟨hnd, fun x => ?_⟩
  rw [DiGraph.dfsList, hiff x]
  simp

/-- C7: from any start vertex, the drained breadth-first and depth-first
iterators visit exactly the same set of vertices — same membership and
(both visit lists being duplicate-free) the same cardinality — namely the
set of vertices reachable from the start by outgoing edges. -/
theorem claim_C7_bfs_dfs_same_set (g : ASTGraph) (x : Nat) :
    (g.bfs_iterator x).Nodup ∧ (g.dfs_iterator x).Nodup ∧
    (g.bfs_iterator x).length = (g.dfs_iterator x).length ∧
    ∀ v, v ∈ g.bfs_iterator x ↔ v ∈ g.dfs_iterator x := by
  obtain ⟨hbn, hbi⟩ := bfsList_spec g.graph x
  obtain ⟨hdn, hdi⟩ := dfsList_spec g.graph x
  have hmem : ∀ v, v ∈ g.bfs_iterator x ↔ v ∈ g.dfs_iterator x := fun v =>
    (hbi v).trans (hdi v).symm
  refine ⟨hbn, hdn, ?_, hmem⟩
  have h1 := (List.subperm_of_subset hbn (fun v hv => (hmem v).mp hv)).length_le
  have h2 := (List.subperm_of_subset hdn (fun v hv => (hmem v).mpr hv)).length_le
  exact Nat.le_antisymm h1 h2

/-- C5: the drained reversed depth-first iterator from `s` visits exactly
the vertices from which `s` is reachable by outgoing edges (the ancestors
of `s`, plus `s` itself) — it is a depth-first traversal of the
edge-reversed graph. -/
theorem claim_C5_reversed_dfs_ancestors (g : ASTGraph) (s x : Nat) :
    (x ∈ g.reversed_dfs_iterator s ↔ Reachable g.graph x s) ∧
    g.reversed_dfs_iterator s = g.graph.reversed.dfsList s := by
  obtain ⟨_, hdi⟩ := dfsList_spec g.graph.reversed s
  exact ⟨(hdi x).trans reachable_reversed, rfl⟩

/-! ### Subgraph extraction -/

/-- The vertices `extract_subgraphs` matches, in vertex-creation order
(the order `node_indices` yields them). -/
def matchedVertices (g : ASTGraph) (kinds : List Nat) : List Nat :=
  (g.graph.node_indices).filter (fun i => kinds.contains (g.graph.weight i).kind_id)

/-- The subgraph `extract_subgraphs` pushes for one matched vertex. -/
def extractOne (g : ASTGraph) (node : Nat) : ASTGraph :=
  { g.create_subgraph (g.collect_subgraph_nodes node) with
    source := strSlice g.source (g.graph.weight node).range.start_byte
      (g.graph.weight node).range.end_byte }

theorem extract_subgraphs_eq (g : ASTGraph) (kinds : List Nat) :
    g.extract_subgraphs kinds = (matchedVertices g kinds).map (extractOne g) := by
  have h := foldl_if_append (fun node => kinds.contains (g.graph.weight node).kind_id)
    (extractOne g) g.graph.node_indices []
  rw [List.nil_append] at h
  exact h

theorem create_fold_spec (g : ASTGraph) (l : List Nat) :
    ∀ (ns : List GNode) (m1 m2 : List (Nat × Nat)),
      l.Nodup →
      (∀ k ∈ m1.map Prod.fst, k ∉ l) →
      (∀ k ∈ m2.map Prod.fst, k < ns.length) →
      l.foldl (fun acc node =>
          (acc.1 ++ [g.graph.weight node],
           mapInsert acc.2.1 node acc.1.length,
           mapInsert acc.2.2 acc.1.length (g.graph.weight node).id)) (ns, m1, m2)
        = (ns ++ l.map g.graph.weight,
           m1 ++ posPairs ns.length l,
           m2 ++ idxPairs ns.length (l.map (fun v => (g.graph.weight v).id))) := by
  induction l with
  | nil =>
    intro ns m1 m2 _ _ _
    simp [posPairs, idxPairs]
  | cons v l ih =>
    intro ns m1 m2 hnd hm1 hm2
    simp only [List.foldl_cons]
    have hv1 : v ∉ m1.map Prod.fst := fun hv => hm1 v hv (List.mem_cons_self _ _)
    have hv2 : ns.length ∉ m2.map Prod.fst := fun hv => absurd (hm2 _ hv) (lt_irrefl _)
    rw [mapInsert_of_fresh _ _ _ hv1, mapInsert_of_fresh _ _ _ hv2]
    rw [ih (ns ++ [g.graph.weight v]) (m1 ++ [(v, ns.length)])
      (m2 ++ [(ns.length, (g.graph.weight v).id)])
      (List.nodup_cons.mp hnd).2 ?_ ?_]
    · simp only [List.map_cons, posPairs, idxPairs, List.length_append,
        List.length_singleton, List.append_assoc, List.singleton_append]
    · intro k hk
      rw [List.map_append] at hk
      rcases List.mem_append.mp hk with hk | hk
      · exact fun hkl => hm1 k hk (List.mem_cons_of_mem _ hkl)
      · have : k = v := by simpa using hk
        exact this ▸ (List.nodup_cons.mp hnd).1
    · intro k hk
      rw [List.map_append] at hk
      rw [List.length_append, List.length_singleton]
      rcases List.mem_append.mp hk with hk | hk
      · have := hm2 k hk
        omega
      · have : k = ns.length := by simpa using hk
        omega

theorem create_subgraph_spec (g : ASTGraph) (l : List Nat) (hnd : l.Nodup) :
    (g.create_subgraph l).graph.nodes = l.map g.graph.weight ∧
    (g.create_subgraph l).node_map
      = idxPairs 0 (l.map (fun v => (g.graph.weight v).id)) ∧
    (g.create_subgraph l).node_count = l.length ∧
    (g.create_subgraph l).graph.edges
      = (g.graph.edges.filter
          (fun e => l.contains e.source && l.contains e.target)).map
        (fun e => { source := l.indexOf e.source, target := l.indexOf e.target }) := by
  have hrec : g.create_subgraph l
      = { graph := { nodes := l.map g.graph.weight,
                     edges := g.graph.edges.foldl (fun es e =>
                       if l.contains e.source && l.contains e.target then
                         es ++ [Edge.mk ((mapGet (posPairs 0 l) e.source).getD 0)
                                        ((mapGet (posPairs 0 l) e.target).getD 0)]
                       else es) [] },
          node_map := idxPairs 0 (l.map (fun v => (g.graph.weight v).id)),
          source := "", title := "" } := by
    simp only [ASTGraph.create_subgraph]
    rw [create_fold_spec g l [] [] [] hnd (by simp) (by simp)]
    rfl
  rw [hrec]
  refine ⟨rfl, rfl, ?_, ?_⟩
  · show (idxPairs 0 (l.map (fun v => (g.graph.weight v).id))).length = l.length
    rw [length_idxPairs, List.length_map]
  · have h2 := foldl_if_append (fun e : Edge => l.contains e.source && l.contains e.target)
      (fun e => Edge.mk ((mapGet (posPairs 0 l) e.source).getD 0)
                        ((mapGet (posPairs 0 l) e.target).getD 0)) g.graph.edges []
    rw [List.nil_append] at h2
    refine h2.trans ?_
    apply List.map_congr_left
    intro e he
    have hp := List.of_mem_filter he
    simp only [Bool.and_eq_true] at hp
    have hs : e.source ∈ l := contains_iff_mem.mp hp.1
    have ht : e.target ∈ l := contains_iff_mem.mp hp.2
    rw [mapGet_posPairs_of_mem 0 l e.source hnd hs, mapGet_posPairs_of_mem 0 l e.target hnd ht]
    simp

/-- C4: `extract_subgraphs kinds` yields exactly one subgraph per vertex
whose kind is in the kind set, in vertex-creation order; the `k`-th output
is built on the set `R` of vertices breadth-first reachable from the
`k`-th matched vertex `V` (including `V`): its vertex list carries the
id/kind/range payload of each member of `R` exactly once, its
back-reference map has one entry per member, and its edges are exactly the
original edges with both endpoints in `R`, renumbered by position in `R`. -/
theorem claim_C4_extract_subgraphs (g : ASTGraph) (kinds : List Nat) (k : Nat)
    (hk : k < (g.extract_subgraphs kinds).length) :
    (g.extract_subgraphs kinds).length = (matchedVertices g kinds).length ∧
    ∀ V, V = (matchedVertices g kinds).getD k 0 →
      kinds.contains (g.graph.weight V).kind_id = true ∧
      (g.graph.bfsList V).Nodup ∧
      (∀ x, x ∈ g.graph.bfsList V ↔ Reachable g.graph V x) ∧
      ((g.extract_subgraphs kinds).getD k default).graph.nodes
        = (g.graph.bfsList V).map g.graph.weight ∧
      ((g.extract_subgraphs kinds).getD k default).node_count
        = (g.graph.bfsList V).length ∧
      ((g.extract_subgraphs kinds).getD k default).graph.edges
        = (g.graph.edges.filter (fun e =>
            (g.graph.bfsList V).contains e.source
              && (g.graph.bfsList V).contains e.target)).map
          (fun e => { source := (g.graph.bfsList V).indexOf e.source,
                      target := (g.graph.bfsList V).indexOf e.target }) := by
  have hlen : (g.extract_subgraphs kinds).length = (matchedVertices g kinds).length := by
    rw [extract_subgraphs_eq, List.length_map]
  refine ⟨hlen, ?_⟩
  intro V hV
  rw [hlen] at hk
  obtain ⟨hbnd, hbi⟩ := bfsList_spec g.graph V
  have hVmem : V ∈ matchedVertices g kinds := by
    rw [hV, List.getD_eq_getElem?_getD, List.getElem?_eq_getElem hk]
    exact List.getElem_mem _
  have hkind : kinds.contains (g.graph.weight V).kind_id = true := by
    have hVmem2 : V ∈ (g.graph.node_indices).filter
        (fun i => kinds.contains (g.graph.weight i).kind_id) := hVmem
    have h3 := List.of_mem_filter hVmem2
    simpa using h3
  have hsub : ((g.extract_subgraphs kinds).getD k default)
      = extractOne g V := by
    rw [extract_subgraphs_eq]
    rw [List.getD_eq_getElem?_getD, List.getElem?_map, List.getElem?_eq_getElem hk]
    rw [hV, List.getD_eq_getElem?_getD, List.getElem?_eq_getElem hk]
    rfl
  obtain ⟨hn, hm, hc, he⟩ :=
    create_subgraph_spec g (g.collect_subgraph_nodes V) hbnd
  refine ⟨hkind, hbnd, hbi, ?_, ?_, ?_⟩
  · rw [hsub]
    exact hn
  · rw [hsub]
    show (g.create_subgraph (g.collect_subgraph_nodes V)).node_map.length = _
    rw [show (g.create_subgraph (g.collect_subgraph_nodes V)).node_map.length
        = (g.create_subgraph (g.collect_subgraph_nodes V)).node_count from rfl, hc]
    rfl
  · rw [hsub]
    exact he

theorem claim_C4_extract_subgraphs_witness :
    0 < (exGraph.extract_subgraphs [0]).length ∧
    ((exGraph.extract_subgraphs [0]).length = (matchedVertices exGraph [0]).length ∧
     ∀ V, V = (matchedVertices exGraph [0]).getD 0 0 →
       [0].contains (exGraph.graph.weight V).kind_id = true ∧
       (exGraph.graph.bfsList V).Nodup ∧
       (∀ x, x ∈ exGraph.graph.bfsList V ↔ Reachable exGraph.graph V x) ∧
       ((exGraph.extract_subgraphs [0]).getD 0 default).graph.nodes
         = (exGraph.graph.bfsList V).map exGraph.graph.weight ∧
       ((exGraph.extract_subgraphs [0]).getD 0 default).node_count
         = (exGraph.graph.bfsList V).length ∧
       ((exGraph.extract_subgraphs [0]).getD 0 default).graph.edges
         = (exGraph.graph.edges.filter (fun e =>
             (exGraph.graph.bfsList V).contains e.source
               && (exGraph.graph.bfsList V).contains e.target)).map
           (fun e => { source := (exGraph.graph.bfsList V).indexOf e.source,
                       target := (exGraph.graph.bfsList V).indexOf e.target })) :=
  ⟨by decide, claim_C4_extract_subgraphs exGraph [0] 0 (by decide)⟩

/-! ### The partition identity for non-nested kind sets -/

theorem build_tree_shaped (s : String) (t : TSTree) :
    TreeShaped ((ASTGraph.new s).build_from_tree t).graph := by
  refine ⟨build_edges_lt s t, ?_⟩
  have h : (((ASTGraph.new s).build_from_tree t).graph.edges.map Edge.target).Nodup := by
    rw [build_edge_targets]
    exact List.nodup_range' _ _
  have h2 : (((ASTGraph.new s).build_from_tree t).graph.edges.map Edge.target).Pairwise
      (fun a b => a ≠ b) := h
  exact List.pairwise_map.mp h2

theorem build_reachable_lt (s : String) (t : TSTree) {V x : Nat}
    (h : Reachable ((ASTGraph.new s).build_from_tree t).graph V x) (hV : V < t.count) :
    x < t.count := by
  induction h with
  | refl => exact hV
  | tail _ hstep ih =>
    obtain ⟨e, he, hxe⟩ := successors_target hstep
    have hmem : e.target ∈ ((ASTGraph.new s).build_from_tree t).graph.edges.map Edge.target :=
      List.mem_map.mpr ⟨e, he, rfl⟩
    rw [build_edge_targets] at hmem
    have hb := List.mem_range'_1.mp hmem
    have hc := t.count_pos
    omega

theorem reachable_comparable {g : DiGraph} (hts : TreeShaped g) :
    ∀ (k : Nat) (p : List Nat) (u v x : Nat), p.length ≤ k →
      IsPath g u x p → Reachable g v x → Reachable g u v ∨ Reachable g v u := by
  intro k
  induction k with
  | zero =>
    intro p u v x hlen hp _
    obtain ⟨q, hq⟩ := isPath_start hp
    rw [hq] at hlen
    simp at hlen
  | succ k ih =>
    intro p u v x hlen hp hv
    rcases isPath_snoc_cases hp with ⟨hp1, hb⟩ | ⟨p', w, hpq, hp', hwe⟩
    · exact Or.inr (hb ▸ hv)
    · obtain ⟨q, hq⟩ := reachable_iff_isPath.mp hv
      rcases isPath_snoc_cases hq with ⟨hq1, hb⟩ | ⟨q', w2, hqq, hq', hwe2⟩
      · exact Or.inl (hb ▸ reachable_iff_isPath.mpr ⟨p, hp⟩)
      · have hw : ({ source := w, target := x } : Edge)
            = { source := w2, target := x } :=
          pairwise_target_inj hts.2 _ hwe _ hwe2 rfl
        have hww : w = w2 := by injection hw
        subst hww
        have hlen' : p'.length ≤ k := by
          rw [hpq, List.length_append] at hlen
          simp only [List.length_singleton] at hlen
          omega
        exact ih p' u v w hlen' hp' (reachable_iff_isPath.mpr ⟨q', hq'⟩)

theorem length_filter_add_not {α : Type} (l : List α) (p : α → Bool) :
    (l.filter p).length + (l.filter (fun x => !(p x))).length = l.length := by
  induction l with
  | nil => rfl
  | cons a l ih =>
    cases h : p a <;> simp [List.filter_cons, h] <;> omega

theorem length_eq_of_nodup_same_mem {l1 l2 : List Nat} (h1 : l1.Nodup) (h2 : l2.Nodup)
    (hm : ∀ x, x ∈ l1 ↔ x ∈ l2) : l1.length = l2.length :=
  Nat.le_antisymm (List.subperm_of_subset h1 (fun x hx => (hm x).mp hx)).length_le
    (List.subperm_of_subset h2 (fun x hx => (hm x).mpr hx)).length_le

theorem partition_count (g : ASTGraph) (kinds : List Nat) (N : Nat)
    (hts : TreeShaped g.graph)
    (hN : g.graph.nodes.length = N)
    (hcnt : g.node_count = N)
    (hlt : ∀ V x, Reachable g.graph V x → V < N → x < N)
    (hnn : (matchedVertices g kinds).Pairwise
      (fun a b => b ∉ g.graph.bfsList a ∧ a ∉ g.graph.bfsList b)) :
    ((g.extract_subgraphs kinds).map ASTGraph.node_count).sum
      + ((List.range N).filter (fun i =>
          !((matchedVertices g kinds).any
            (fun V => (g.graph.bfsList V).contains i)))).length
      = g.node_count := by
  set M := matchedVertices g kinds with hM
  have hsum : ((g.extract_subgraphs kinds).map ASTGraph.node_count).sum
      = (M.flatMap (fun V => g.graph.bfsList V)).length := by
    rw [extract_subgraphs_eq, List.map_map]
    have hmapc : M.map (ASTGraph.node_count ∘ extractOne g)
        = M.map (fun V => (g.graph.bfsList V).length) := by
      apply List.map_congr_left
      intro V _
      show (extractOne g V).node_count = (g.graph.bfsList V).length
      exact (create_subgraph_spec g (g.graph.bfsList V) (bfsList_spec g.graph V).1).2.2.1
    rw [hmapc, List.length_flatMap]
    rfl
  have hmemL : ∀ i, i ∈ M.flatMap (fun V => g.graph.bfsList V)
      ↔ ∃ V ∈ M, i ∈ g.graph.bfsList V := fun i => List.mem_flatMap
  have hLnd : (M.flatMap (fun V => g.graph.bfsList V)).Nodup := by
    rw [List.nodup_flatMap]
    refine ⟨fun V _ => (bfsList_spec g.graph V).1, ?_⟩
    refine hnn.imp ?_
    intro a b hab
    intro x hxa hxb
    have hra : Reachable g.graph a x := ((bfsList_spec g.graph a).2 x).mp hxa
    have hrb : Reachable g.graph b x := ((bfsList_spec g.graph b).2 x).mp hxb
    obtain ⟨p, hp⟩ := reachable_iff_isPath.mp hra
    rcases reachable_comparable hts p.length p a b x (Nat.le_refl _) hp hrb with h | h
    · exact hab.1 (((bfsList_spec g.graph a).2 b).mpr h)
    · exact hab.2 (((bfsList_spec g.graph b).2 a).mpr h)
  have hLsub : ∀ x ∈ M.flatMap (fun V => g.graph.bfsList V), x ∈ List.range N := by
    intro x hx
    obtain ⟨V, hVM, hxV⟩ := (hmemL x).mp hx
    have hVlt : V < N := by
      have hVi : V ∈ (g.graph.node_indices).filter
          (fun i => kinds.contains (g.graph.weight i).kind_id) := hVM
      have hVr : V ∈ List.range g.graph.nodes.length := List.mem_of_mem_filter hVi
      have := List.mem_range.mp hVr
      omega
    have hr : Reachable g.graph V x := ((bfsList_spec g.graph V).2 x).mp hxV
    exact List.mem_range.mpr (hlt V x hr hVlt)
  have hPb : ∀ i, (M.any (fun V => (g.graph.bfsList V).contains i)) = true
      ↔ i ∈ M.flatMap (fun V => g.graph.bfsList V) := by
    intro i
    rw [List.any_eq_true]
    constructor
    · rintro ⟨V, hV, hc⟩
      exact (hmemL i).mpr ⟨V, hV, contains_iff_mem.mp hc⟩
    · intro h
      obtain ⟨V, hV, hx⟩ := (hmemL i).mp h
      exact ⟨V, hV, contains_iff_mem.mpr hx⟩
  have hflen : ((List.range N).filter (fun i =>
      M.any (fun V => (g.graph.bfsList V).contains i))).length
      = (M.flatMap (fun V => g.graph.bfsList V)).length := by
    apply length_eq_of_nodup_same_mem (List.Nodup.filter _ (List.nodup_range N)) hLnd
    intro x
    rw [List.mem_filter]
    constructor
    · rintro ⟨_, hp⟩
      exact (hPb x).mp hp
    · intro hx
      exact ⟨hLsub x hx, (hPb x).mpr hx⟩
  have hsplit : ((List.range N).filter (fun i =>
        M.any (fun V => (g.graph.bfsList V).contains i))).length
      + ((List.range N).filter (fun i =>
        !(M.any (fun V => (g.graph.bfsList V).contains i)))).length
      = N := by
    have h := length_filter_add_not (List.range N)
      (fun i => M.any (fun V => (g.graph.bfsList V).contains i))
    simpa using h
  rw [hsum, hcnt]
  omega

/-- C3 (corrected): for a graph built from a tree and a kind set in which
no matched vertex is an ancestor of another matched vertex, the matched
subtrees are pairwise disjoint, so the sum of the extracted subgraphs'
vertex counts plus the number of vertices belonging to no extracted
subgraph equals the total vertex count.  (The original claim added the
number of subgraphs instead of the number of unextracted vertices; the
counterexample refutes it.) -/
theorem claim_C3_partition_corrected (s : String) (t : TSTree) (kinds : List Nat)
    (hnn : (matchedVertices ((ASTGraph.new s).build_from_tree t) kinds).Pairwise
      (fun a b => b ∉ ((ASTGraph.new s).build_from_tree t).graph.bfsList a ∧
                  a ∉ ((ASTGraph.new s).build_from_tree t).graph.bfsList b)) :
    ((((ASTGraph.new s).build_from_tree t).extract_subgraphs kinds).map
        ASTGraph.node_count).sum
      + ((List.range t.count).filter (fun i =>
          !((matchedVertices ((ASTGraph.new s).build_from_tree t) kinds).any
            (fun V => (((ASTGraph.new s).build_from_tree t).graph.bfsList V).contains i)))).length
      = ((ASTGraph.new s).build_from_tree t).node_count :=
  partition_count ((ASTGraph.new s).build_from_tree t) kinds t.count
    (build_tree_shaped s t) (build_nodes_length s t) (build_node_count s t)
    (fun V x hr hV => build_reachable_lt s t hr hV) hnn

theorem claim_C3_partition_corrected_witness :
    (matchedVertices exGraph [1]).Pairwise
      (fun a b => b ∉ exGraph.graph.bfsList a ∧ a ∉ exGraph.graph.bfsList b) ∧
    ((exGraph.extract_subgraphs [1]).map ASTGraph.node_count).sum
      + ((List.range exTree.count).filter (fun i =>
          !((matchedVertices exGraph [1]).any
            (fun V => (exGraph.graph.bfsList V).contains i)))).length
      = exGraph.node_count :=
  ⟨by decide, claim_C3_partition_corrected "ab" exTree [1] (by decide)⟩

/-- C3 counterexample: on the two-vertex tree `exTree` with the kind set
matching only the root, no matched vertex is an ancestor of another
matched vertex (there is a single match), yet the sum of subgraph vertex
counts (2) plus the number of subgraphs (1) is 3 while the total vertex
count is 2 — the claimed invariant fails. -/
theorem claim_C3_counterexample :
    (matchedVertices exGraph [0]).Pairwise
      (fun a b => b ∉ exGraph.graph.bfsList a ∧ a ∉ exGraph.graph.bfsList b) ∧
    ¬ (((exGraph.extract_subgraphs [0]).map ASTGraph.node_count).sum
        + (exGraph.extract_subgraphs [0]).length = exGraph.node_count) := by
  constructor
  · decide
  · decide
